import Mathlib

/-
Verification of the infocodec core (shannon-portrait repository).

The codecs operate on images whose pixels are 8-bit symbols.  All six
compressors first flatten the image row-major (numpy `flatten`) and all
reconstructors reshape the decoded flat data back to the metadata shape,
so the embedding works with the flat pixel list plus the shape record:
an image is a `List Nat` of pixel values (each < 256) together with a
`shape : List Nat` whose product is the pixel count.  Payload bytes are
modelled as natural numbers (the Python payloads are `bytes`, values in
[0, 255]).  A numpy call that raises is modelled by an `Option` result
with `none` for the exception.
-/

set_option maxHeartbeats 1000000
set_option maxRecDepth 4096

/-- Big-endian 4-byte serialisation of a natural number, as produced by
Python `n.to_bytes(4, byteorder="big")`. -/
def be4 (n : Nat) : List Nat :=
  [n / 16777216 % 256, n / 65536 % 256, n / 256 % 256, n % 256]

/-- Big-endian integer value of a byte list, as computed by
`int.from_bytes(bs, byteorder="big")`. -/
def be4val (bs : List Nat) : Nat :=
  bs.foldl (fun acc b => acc * 256 + b) 0

/-- Conversion of a Python integer list to a numpy uint8 array
(`np.array(l, dtype=np.uint8)`): every element is reduced mod 256. -/
def toUint8List (l : List Nat) : List Nat :=
  l.map (fun n => n % 256)

/-- Edge padding `np.pad(xs, (0, k), mode="edge")` of a flat array.
numpy raises `ValueError` (cannot extend an empty axis with edge mode)
when the array is empty and the pad amount is positive; that exception
is modelled by `none`. -/
def padEdge (xs : List Nat) (k : Nat) : Option (List Nat) :=
  if k = 0 then some xs
  else
    match xs.getLast? with
    | none => none
    | some v => some (xs ++ List.replicate k v)

/-- Shared tail of the lossless reconstructors (`direct.py`, `rle.py`,
`differential.py`, `huffman.py`): when the metadata shape has at least
two dimensions, a decoded array shorter than `shape.prod` is extended by
edge padding, a longer one is truncated, and the result is reshaped.
Reshape of row-major flat data is the identity on the flat list, so only
the length adjustment is visible here. -/
def fitToShape (xs : List Nat) (shape : List Nat) : Option (List Nat) :=
  if 2 ≤ shape.length then
    if xs.length < shape.prod then padEdge xs (shape.prod - xs.length)
    else if shape.prod < xs.length then some (xs.take shape.prod)
    else some xs
  else some xs

/-- NaiveCompressor.compress: the flattened image serialised one byte per
symbol (`flat_data.tobytes()`); no transformation at all. -/
def naiveCompress (ns : List Nat) : List Nat := ns

/-- DirectReconstructor.reconstruct: `np.frombuffer(payload, np.uint8)`
followed by the pad/truncate/reshape step. -/
def directReconstruct (payload : List Nat) (shape : List Nat) : Option (List Nat) :=
  fitToShape payload shape

/-- Run loop of RLECompressor.compress: scans the remaining values with
the current run value and count; a run is emitted when the value changes
or the count reaches 255, and the final run is emitted at the end. -/
def rleRuns (current : Nat) (count : Nat) : List Nat → List (Nat × Nat)
  | [] => [(current, count)]
  | v :: rest =>
    if v = current ∧ count < 255 then rleRuns current (count + 1) rest
    else (current, count) :: rleRuns v 1 rest

/-- RLECompressor.compress on the flattened image: the run pairs
serialised as alternating value and count bytes (`bytes(rle_encoded)`). -/
def rleCompress (ns : List Nat) : List Nat :=
  match ns with
  | [] => []
  | v :: rest => (rleRuns v 1 rest).flatMap (fun p => [p.1, p.2])

/-- Pair expansion loop of RLEReconstructor.reconstruct: consecutive
(value, count) byte pairs are expanded; a lone trailing byte is ignored
(the source checks `i + 1 < len(rle_data)`). -/
def rleDecodeBytes : List Nat → List Nat
  | v :: c :: rest => List.replicate c v ++ rleDecodeBytes rest
  | _ => []

/-- RLEReconstructor.reconstruct: expand the pairs, convert to a uint8
array, then pad/truncate/reshape. -/
def rleReconstruct (payload : List Nat) (shape : List Nat) : Option (List Nat) :=
  fitToShape (toUint8List (rleDecodeBytes payload)) shape

/-- Wrap of an integer into the signed 16-bit range, the arithmetic of a
numpy int16 array. -/
def toInt16 (z : ℤ) : ℤ := (z + 32768) % 65536 - 32768

/-- Wrap of an integer into the signed 64-bit range; `np.cumsum` over an
int16 array accumulates in the platform integer type int64. -/
def toInt64 (z : ℤ) : ℤ :=
  (z + 9223372036854775808) % 18446744073709551616 - 9223372036854775808

/-- DifferentialCompressor.compress on the flattened image: the pixels
are cast to int16 (`flat_data.astype(np.int16)`), the first value is
stored verbatim and the remaining entries are the consecutive
differences `np.diff(flat_data)`.  The payload is this int16 sequence
(`diff_encoded.tobytes()` and `np.frombuffer(-, np.int16)` are mutually
inverse, so the embedding stays at the int16-array level). -/
def diffCompress (ns : List Nat) : List ℤ :=
  let flat := ns.map (fun (n : Nat) => toInt16 (n : ℤ))
  match flat with
  | [] => []
  | n :: rest => n :: List.zipWith (fun a b => toInt16 (a - b)) rest (n :: rest)

/-- Running `np.cumsum` accumulator over int64 starting from `acc`. -/
def cumsumFrom (acc : ℤ) : List ℤ → List ℤ
  | [] => []
  | d :: rest => toInt64 (acc + d) :: cumsumFrom (toInt64 (acc + d)) rest

/-- Conversion of an int64 value to uint8 (`.astype(np.uint8)`): the low
byte, i.e. reduction mod 256 (not a clamp). -/
def toUint8Int (z : ℤ) : Nat := (z % 256).toNat

/-- Decoding loop of DifferentialReconstructor.reconstruct: cumulative
sum of the int16 payload followed by the uint8 cast. -/
def diffDecode (pz : List ℤ) : List Nat :=
  (cumsumFrom 0 pz).map toUint8Int

/-- DifferentialReconstructor.reconstruct: integrate the differences,
cast to uint8, then pad/truncate/reshape. -/
def diffReconstruct (pz : List ℤ) (shape : List Nat) : Option (List Nat) :=
  fitToShape (diffDecode pz) shape

-- Basic facts about the shared pieces.

theorem padEdge_zero (xs : List Nat) : padEdge xs 0 = some xs := by
  simp [padEdge]

theorem fitToShape_exact (xs : List Nat) (shape : List Nat)
    (h : xs.length = shape.prod) : fitToShape xs shape = some xs := by
  unfold fitToShape
  by_cases h2 : 2 ≤ shape.length
  · simp [h2, h]
  · simp [h2]

theorem toUint8List_id (xs : List Nat) (h : ∀ x ∈ xs, x < 256) :
    toUint8List xs = xs := by
  unfold toUint8List
  induction xs with
  | nil => simp
  | cons a l ih =>
    have ha : a < 256 := h a (by simp)
    have hl : ∀ x ∈ l, x < 256 := fun x hx => h x (by simp [hx])
    simp [Nat.mod_eq_of_lt ha, ih hl]

-- The Huffman codec (compressors/image/huffman.py, reconstructors/image/huffman.py).

/-- Node of the Huffman tree: a leaf carries a symbol and its frequency,
an internal node carries only the aggregate frequency (HuffmanNode with
`symbol = None`); internal nodes are only ever created with both
children present. -/
inductive HTree where
  | leaf (symbol : Nat) (freq : Nat)
  | node (freq : Nat) (left : HTree) (right : HTree)
deriving DecidableEq

/-- Frequency of a node (`HuffmanNode.freq`), the heap ordering key. -/
def HTree.freq : HTree → Nat
  | .leaf _ f => f
  | .node f _ _ => f

/-- Extraction of a minimum-frequency node (`heapq.heappop`) from the
nonempty collection `t :: ts`; returns the minimum and the remaining
nodes.  `HuffmanNode.__lt__` compares frequencies only, so any
minimum-frequency element is a faithful pop; this model takes the
earliest one. -/
def extractMin1 (t : HTree) : List HTree → HTree × List HTree
  | [] => (t, [])
  | u :: rest =>
    let p := extractMin1 u rest
    if p.1.freq < t.freq then (p.1, t :: p.2) else (t, u :: rest)

theorem extractMin1_snd_length (t : HTree) (l : List HTree) :
    (extractMin1 t l).2.length = l.length := by
  induction l generalizing t with
  | nil => rfl
  | cons u rest ih =>
    unfold extractMin1
    by_cases h : (extractMin1 u rest).1.freq < t.freq
    · simp [h, ih u]
    · simp [h]

/-- Tree-building loop of `_build_huffman_tree`: while more than one node
remains, pop the two lowest-frequency nodes, merge them as the children
of a fresh internal node whose frequency is their sum, and push the
merge back. -/
def buildLoop (t : HTree) (ts : List HTree) : HTree :=
  match ts with
  | [] => t
  | u :: rest =>
    let p := extractMin1 t (u :: rest)
    let q := extractMin1 (p.2.headD p.1) p.2.tail
    buildLoop (HTree.node (p.1.freq + q.1.freq) p.1 q.1) q.2
termination_by ts.length
decreasing_by
  simp only [extractMin1_snd_length, List.length_tail, List.length_cons]
  omega

/-- `_build_huffman_tree`: leaves are created from the frequency table
and merged bottom-up; an empty table gives no tree (`huffman_tree =
None`). -/
def buildHuffmanTree (freqs : List (Nat × Nat)) : Option HTree :=
  match freqs.map (fun p => HTree.leaf p.1 p.2) with
  | [] => none
  | t :: ts => some (buildLoop t ts)

/-- `_generate_codes`: depth-first traversal of the tree appending a 0
bit for a left branch and a 1 bit for a right branch; a leaf receives
the path as its codeword, except that a leaf at the root (empty path)
receives the single-bit code "0".  Bits are modelled as booleans with
`false` for the character "0" and `true` for "1". -/
def codesOf : HTree → List Bool → List (Nat × List Bool)
  | .leaf s _, code => [(s, if code = [] then [false] else code)]
  | .node _ l r, code => codesOf l (code ++ [false]) ++ codesOf r (code ++ [true])

/-- Sorted distinct symbol values of the flattened image, the first
component of `np.unique(flat_data, return_counts=True)`. -/
def sortedDedup (ns : List Nat) : List Nat :=
  ns.dedup.mergeSort (fun a b => decide (a ≤ b))

/-- Frequency table `freq_dict` built from `np.unique`: each distinct
value with its occurrence count. -/
def huffmanFreqs (ns : List Nat) : List (Nat × Nat) :=
  (sortedDedup ns).map (fun v => (v, ns.count v))

/-- The code table `huffman_codes` produced by one compress call. -/
def huffmanCodesOf (ns : List Nat) : List (Nat × List Bool) :=
  match buildHuffmanTree (huffmanFreqs ns) with
  | none => []
  | some t => codesOf t []

/-- Code-table lookup `huffman_codes[int(val)]`; total because every
pixel value of the image occurs in the table (proved below). -/
def codeFor (cs : List (Nat × List Bool)) (v : Nat) : List Bool :=
  ((cs.find? (fun p => p.1 == v)).map (fun p => p.2)).getD []

/-- Value of one byte from its eight bits, most significant first; the
byte packing `int(encoded_bits, 2).to_bytes(len(encoded_bits) // 8,
byteorder="big")` is exactly the chunking of the bit string into
big-endian bytes. -/
def bitsToByte (bs : List Bool) : Nat :=
  bs.foldl (fun acc b => acc * 2 + (if b then 1 else 0)) 0

/-- Packing of a byte-aligned bit string into bytes, eight bits per
byte, most significant first. -/
def packBits : List Bool → List Nat
  | b0 :: b1 :: b2 :: b3 :: b4 :: b5 :: b6 :: b7 :: rest =>
    bitsToByte [b0, b1, b2, b3, b4, b5, b6, b7] :: packBits rest
  | _ => []

/-- Bit expansion `format(byte, "08b")` of one byte, most significant
bit first. -/
def byteToBits (n : Nat) : List Bool :=
  [n / 128 % 2 == 1, n / 64 % 2 == 1, n / 32 % 2 == 1, n / 16 % 2 == 1,
   n / 8 % 2 == 1, n / 4 % 2 == 1, n / 2 % 2 == 1, n % 2 == 1]

/-- Decimal digit bytes of a natural number (ASCII), as they appear in
the JSON serialisation of the code table. -/
def natDecBytes (n : Nat) : List Nat :=
  if h : n < 10 then [48 + n]
  else natDecBytes (n / 10) ++ [48 + n % 10]
termination_by n
decreasing_by
  exact Nat.div_lt_self (by omega) (by omega)

/-- One entry of `json.dumps(self.huffman_codes)`: the decimal symbol in
quotes, a colon and space, and the quoted bit string (byte 34 is the
quote, 58 the colon, 32 the space, 48 and 49 the digits 0 and 1). -/
def jsonEntry (p : Nat × List Bool) : List Nat :=
  34 :: natDecBytes p.1 ++ [34, 58, 32, 34] ++
    p.2.map (fun b => if b then 49 else 48) ++ [34]

/-- UTF-8 bytes of `json.dumps(self.huffman_codes)`: entries in table
order inside braces (bytes 123 and 125), separated by comma and space. -/
def jsonCodeBytes : List (Nat × List Bool) → List Nat
  | [] => [123, 125]
  | e :: rest =>
    123 :: jsonEntry e ++ rest.flatMap (fun p => [44, 32] ++ jsonEntry p) ++ [125]

/-- HuffmanCompressor.compress on the flattened image: build the tree
and codes, concatenate the per-pixel codewords, right-pad with zero bits
to a byte boundary, and serialise as
`[table_length(4)][table][padding(1)][packed bits]`.  An empty image
yields an empty payload and an empty code table.  Returns the payload
together with the `huffman_codes` metadata entry. -/
def huffmanCompress (ns : List Nat) : List Nat × List (Nat × List Bool) :=
  match buildHuffmanTree (huffmanFreqs ns) with
  | none => ([], [])
  | some t =>
    let codes := codesOf t []
    let bits := ns.flatMap (codeFor codes)
    let padding := (8 - bits.length % 8) % 8
    let packed := packBits (bits ++ List.replicate padding false)
    let table := jsonCodeBytes codes
    (be4 table.length ++ table ++ padding :: packed, codes)

/-- Lookup in the inverted table `decode_table = {code: symbol}`; the
codes of one table are distinct (proved below), so the first match is
the dictionary entry. -/
def findSym (cs : List (Nat × List Bool)) (c : List Bool) : Option Nat :=
  (cs.find? (fun p => p.2 == c)).map (fun p => p.1)

/-- Greedy bit-stream decoding loop of HuffmanReconstructor: extend the
current candidate code one bit at a time and emit a symbol as soon as
the candidate is in the inverted table. -/
def decodeBitsAux (cs : List (Nat × List Bool)) : List Bool → List Bool → List Nat
  | _, [] => []
  | current, b :: rest =>
    match findSym cs (current ++ [b]) with
    | some s => s :: decodeBitsAux cs [] rest
    | none => decodeBitsAux cs (current ++ [b]) rest

/-- Symbol sequence recovered by HuffmanReconstructor from a payload
that passed both header-length checks: read the 4-byte table length,
skip the embedded table, read the padding byte, expand the remaining
bytes to bits, strip the padding, and decode greedily using the
`huffman_codes` metadata. -/
def huffmanDecodedOf (payload : List Nat) (cs : List (Nat × List Bool)) : List Nat :=
  let l := be4val (payload.take 4)
  let padding := payload.getD (4 + l) 0
  let bits := (payload.drop (4 + l + 1)).flatMap byteToBits
  let stripped := if 0 < padding then bits.take (bits.length - padding) else bits
  decodeBitsAux cs [] stripped

/-- HuffmanReconstructor.reconstruct: a payload too short for the header
(fewer than 5 bytes, or too short for the declared table plus padding
byte) yields an all-zero array of the metadata shape; otherwise the
decoded symbols are converted to uint8 and pad/truncate/reshaped. -/
def huffmanReconstruct (payload : List Nat) (cs : List (Nat × List Bool))
    (shape : List Nat) : Option (List Nat) :=
  if payload.length < 5 then some (List.replicate shape.prod 0)
  else if payload.length < 4 + be4val (payload.take 4) + 1 then
    some (List.replicate shape.prod 0)
  else fitToShape (toUint8List (huffmanDecodedOf payload cs)) shape

-- The sparse codec (compressors/image/sparse.py, reconstructors/image/sparse.py).

/-- Python `range(0, stop, step)` for a positive step. -/
def strideRange (stop step : Nat) : List Nat :=
  (List.range ((stop + step - 1) / step)).map (fun i => i * step)

/-- SparseCompressor.compress on a 2-D image given as a pixel function
with its dimensions: walk the grid at the sampling stride in both
dimensions and serialise `[num_samples(4)]` followed by
`struct.pack(">HHB", row, col, value)` per sample. -/
def sparseCompress (pixel : Nat → Nat → Nat) (height width rate : Nat) : List Nat :=
  let samples := (strideRange height rate).flatMap
    (fun i => (strideRange width rate).map (fun j => (i, j, pixel i j)))
  be4 samples.length ++ samples.flatMap
    (fun s => [s.1 / 256 % 256, s.1 % 256, s.2.1 / 256 % 256, s.2.1 % 256, s.2.2 % 256])

/-- Sample-extraction loop of SparseReconstructor.reconstruct: read up to
`num_samples` records of five bytes (`struct.unpack(">HHB", ...)`),
stopping early when fewer than five bytes remain, and keep only samples
whose coordinates are inside the declared grid. -/
def parseSamples (height width : Nat) : Nat → List Nat → List (Nat × Nat × Nat)
  | 0, _ => []
  | n + 1, b0 :: b1 :: b2 :: b3 :: b4 :: rest =>
    let row := b0 * 256 + b1
    let col := b2 * 256 + b3
    if row < height ∧ col < width then
      (row, col, b4) :: parseSamples height width n rest
    else parseSamples height width n rest
  | _ + 1, _ => []

/-- SparseReconstructor.reconstruct: a metadata shape with fewer than two
dimensions yields a 1-by-1 zero array; a payload too short for the
4-byte sample count yields a zero array of the declared grid; otherwise
the parsed samples are interpolated over the grid.  The 2-D
interpolation (`scipy.interpolate.griddata`, or the nearest-neighbour
fallback) is an external collaborator and is passed in as `interp`; none
of the verified claims depends on its values. -/
def sparseReconstruct (payload : List Nat) (shape : List Nat)
    (interp : List (Nat × Nat × Nat) → Nat → Nat → List Nat) : Option (List Nat) :=
  if shape.length < 2 then some (List.replicate 1 0)
  else
    let height := shape.headD 0
    let width := shape.tail.headD 0
    if payload.length < 4 then some (List.replicate (height * width) 0)
    else
      let numSamples := be4val (payload.take 4)
      some (interp (parseSamples height width numSamples (payload.drop 4)) height width)

-- The DCT codec (compressors/image/dct.py).

/-- Entry of the orthonormal DCT-II matrix used by
`scipy.fftpack.dct(-, norm="ortho")` for size `bs`. -/
noncomputable def dctMatrixEntry (bs : Nat) (k n : Nat) : ℝ :=
  Real.sqrt ((if k = 0 then 1 else 2) / bs) *
    Real.cos (Real.pi * (2 * n + 1) * k / (2 * bs))

/-- Entry (k, l) of the 2-D orthonormal DCT of one block,
`dct(dct(block.T, norm="ortho").T, norm="ortho")`. -/
noncomputable def dct2Entry (bs : Nat) (block : Nat → Nat → ℝ) (k l : Nat) : ℝ :=
  ∑ n ∈ Finset.range bs, ∑ m ∈ Finset.range bs,
    dctMatrixEntry bs k n * dctMatrixEntry bs l m * block n m

/-- Entry of the quantisation matrix of `_quantize`: 1 + (i + j) / quality,
growing with the distance from the DC coefficient. -/
noncomputable def quantMatrixEntry (quality : ℝ) (i j : Nat) : ℝ :=
  1 + (i + j : ℕ) * (1 / quality)

/-- Quantised DCT coefficient before thresholding. -/
noncomputable def quantizedEntry (bs : Nat) (quality : ℝ) (block : Nat → Nat → ℝ)
    (i j : Nat) : ℝ :=
  dct2Entry bs block i j / quantMatrixEntry quality i j

/-- `np.max(np.abs(quantized))` over one block (the fold starts at 0,
which equals the maximum for the nonempty blocks the code processes
since all entries are absolute values). -/
noncomputable def blockMaxAbs (bs : Nat) (quality : ℝ) (block : Nat → Nat → ℝ) : ℝ :=
  ((List.range bs).flatMap
    (fun i => (List.range bs).map (fun j => |quantizedEntry bs quality block i j|))).foldr max 0

/-- Quantised coefficient after the smallness threshold of `_quantize`:
coefficients of magnitude below `max * (1 - quality) * 0.1` are zeroed. -/
noncomputable def thresholdedEntry (bs : Nat) (quality : ℝ) (block : Nat → Nat → ℝ)
    (i j : Nat) : ℝ :=
  let v := quantizedEntry bs quality block i j
  if |v| < blockMaxAbs bs quality block * (1 - quality) * 0.1 then 0 else v

/-- Row-major flattening `block.flatten()` of one quantised block. -/
noncomputable def dctBlockCoeffs (bs : Nat) (quality : ℝ) (block : Nat → Nat → ℝ) : List ℝ :=
  (List.range bs).flatMap
    (fun i => (List.range bs).map (fun j => thresholdedEntry bs quality block i j))

/-- Padded dimension: the image is padded with edge replication so that
both dimensions become multiples of the block size. -/
def paddedDim (n bs : Nat) : Nat := n + (bs - n % bs) % bs

/-- `np.concatenate` of a list of arrays: raises `ValueError` (needs at
least one array to concatenate) on an empty list, modelled by `none`. -/
noncomputable def npConcatenate (xss : List (List ℝ)) : Option (List ℝ) :=
  match xss with
  | [] => none
  | _ => some xss.flatten

/-- DCTCompressor.compress on a 2-D image given as a pixel function with
its dimensions: clamp the quality to [0.1, 1], pad the image with edge
replication to multiples of the block size, transform, quantise and
threshold each non-overlapping block, and concatenate the flattened
blocks.  The payload is the float32 serialisation of the resulting
coefficient list (4 bytes per coefficient). -/
noncomputable def dctCompress (pixel : Nat → Nat → Nat) (height width bs : Nat)
    (quality : ℝ) : Option (List ℝ) :=
  let q := max 0.1 (min 1 quality)
  let padded : Nat → Nat → ℝ :=
    fun i j => (pixel (min i (height - 1)) (min j (width - 1)) : ℝ)
  let blocks := (List.range (paddedDim height bs / bs)).flatMap
    (fun bi => (List.range (paddedDim width bs / bs)).map
      (fun bj => dctBlockCoeffs bs q (fun i j => padded (bi * bs + i) (bj * bs + j))))
  npConcatenate blocks

-- Shannon entropy (core/metrics.py, calculate_entropy).

/-- `calculate_entropy`: empirical symbol probabilities over the distinct
values of the flattened data, with zero-probability entries filtered
out, summed as the Shannon entropy in bits per symbol. -/
noncomputable def calculate_entropy (ns : List Nat) : ℝ :=
  let probs := (sortedDedup ns).map (fun v => ((ns.count v : ℝ) / (ns.length : ℝ)))
  let pos := probs.filter (fun p => decide (0 < p));
  -((pos.map (fun p => p * Real.logb 2 p)).sum)

-- The decoder registry (reconstructors/__init__.py) and the CLI decode
-- dispatch (cli.py, _decode_image).

/-- The reconstructor classes registered by method key. -/
inductive RKind where
  | direct
  | rle
  | differential
  | huffman
  | sparse
  | dct
deriving DecidableEq

/-- The registry `RECONSTRUCTORS`: both "naive" and "direct" dispatch to
DirectReconstructor. -/
def RECONSTRUCTORS : List (String × RKind) :=
  [("naive", RKind.direct), ("direct", RKind.direct), ("rle", RKind.rle),
   ("differential", RKind.differential), ("huffman", RKind.huffman),
   ("sparse", RKind.sparse), ("dct", RKind.dct)]

/-- Dictionary lookup `RECONSTRUCTORS.get(key)`. -/
def lookupReconstructor (m : String) : Option RKind :=
  (RECONSTRUCTORS.find? (fun p => p.1 == m)).map (fun p => p.2)

/-- Python `str.lower()` restricted to the ASCII keys involved here. -/
def strLower (s : String) : String := String.mk (s.data.map Char.toLower)

/-- CLI decode dispatch `_decode_image`: look the lowercased metadata
method up in the registry; `none` models the hard failure path (the CLI
prints the distinct "Unknown method" message and exits with status 1),
`some` the selected reconstructor class. -/
def cliDecodeMethod (m : String) : Option RKind :=
  lookupReconstructor (strLower m)

-- Prefix-freeness of the generated code table.

/-- Code `a` starts code `b` (is an initial segment, possibly all of it). -/
def startsCode (a b : List Bool) : Prop := ∃ t, a ++ t = b

/-- Pairwise incomparability of a code table: no entry's codeword starts
another entry's codeword. -/
def noCrossStarts (cs : List (Nat × List Bool)) : Prop :=
  cs.Pairwise (fun a b => ¬ startsCode a.2 b.2 ∧ ¬ startsCode b.2 a.2)

theorem startsCode_refl (a : List Bool) : startsCode a a := ⟨[], by simp⟩

theorem startsCode_of_eq {a b : List Bool} (h : a = b) : startsCode a b :=
  h ▸ startsCode_refl a

theorem not_startsCode_branch {q : List Bool} {x y : Bool} (hxy : x ≠ y)
    (sa sb : List Bool) : ¬ startsCode (q ++ x :: sa) (q ++ y :: sb) := by
  rintro ⟨t, ht⟩
  rw [List.append_assoc] at ht
  have h2 : x :: (sa ++ t) = y :: sb := by
    have := List.append_cancel_left ht
    simpa using this
  exact hxy (by injection h2)

/-- Multiset of leaf symbols of a tree, in traversal order. -/
def leafSyms : HTree → List Nat
  | .leaf s _ => [s]
  | .node _ l r => leafSyms l ++ leafSyms r

theorem codesOf_fst (t : HTree) (q : List Bool) :
    (codesOf t q).map Prod.fst = leafSyms t := by
  induction t generalizing q with
  | leaf s f => simp [codesOf, leafSyms]
  | node f l r ihl ihr => simp [codesOf, leafSyms, ihl, ihr]

theorem codesOf_extends (t : HTree) (q : List Bool) (hq : q ≠ []) :
    ∀ p ∈ codesOf t q, ∃ suf, p.2 = q ++ suf := by
  induction t generalizing q with
  | leaf s f =>
    intro p hp
    simp [codesOf, hq] at hp
    exact ⟨[], by simp [hp]⟩
  | node f l r ihl ihr =>
    intro p hp
    simp only [codesOf, List.mem_append] at hp
    rcases hp with hp | hp
    · obtain ⟨suf, hsuf⟩ := ihl (q ++ [false]) (by simp) p hp
      exact ⟨false :: suf, by simp [hsuf]⟩
    · obtain ⟨suf, hsuf⟩ := ihr (q ++ [true]) (by simp) p hp
      exact ⟨true :: suf, by simp [hsuf]⟩

theorem codesOf_ne_nil (t : HTree) (q : List Bool) :
    ∀ p ∈ codesOf t q, p.2 ≠ [] := by
  induction t generalizing q with
  | leaf s f =>
    intro p hp
    by_cases hq : q = [] <;> simp [codesOf, hq] at hp <;> simp [hp, hq]
  | node f l r ihl ihr =>
    intro p hp
    simp only [codesOf, List.mem_append] at hp
    rcases hp with hp | hp
    · exact ihl (q ++ [false]) p hp
    · exact ihr (q ++ [true]) p hp

theorem codesOf_pairwise (t : HTree) (q : List Bool) :
    noCrossStarts (codesOf t q) := by
  induction t generalizing q with
  | leaf s f => simp [codesOf, noCrossStarts]
  | node f l r ihl ihr =>
    unfold noCrossStarts codesOf
    rw [List.pairwise_append]
    refine ⟨ihl (q ++ [false]), ihr (q ++ [true]), ?_⟩
    intro a ha b hb
    obtain ⟨sa, hsa⟩ := codesOf_extends l (q ++ [false]) (by simp) a ha
    obtain ⟨sb, hsb⟩ := codesOf_extends r (q ++ [true]) (by simp) b hb
    rw [hsa, hsb]
    constructor
    · rw [List.append_assoc, List.append_assoc]
      exact not_startsCode_branch (by simp) sa sb
    · rw [List.append_assoc, List.append_assoc]
      exact not_startsCode_branch (by simp) sb sa

-- The merge loop preserves the multiset of leaf symbols.

theorem extractMin1_perm (t : HTree) (l : List HTree) :
    List.Perm ((extractMin1 t l).1 :: (extractMin1 t l).2) (t :: l) := by
  induction l generalizing t with
  | nil => rfl
  | cons u rest ih =>
    unfold extractMin1
    by_cases h : (extractMin1 u rest).1.freq < t.freq
    · simp only [h, if_pos]
      refine List.Perm.trans (List.Perm.swap t _ _) ?_
      exact List.Perm.cons t (ih u)
    · simp [h]

theorem buildLoop_leafSyms : ∀ (n : Nat) (t : HTree) (ts : List HTree),
    ts.length = n →
    List.Perm (leafSyms (buildLoop t ts)) ((t :: ts).flatMap leafSyms) := by
  intro n
  induction n using Nat.strong_induction_on with
  | _ n ih =>
    intro t ts hlen
    match ts with
    | [] => simp [buildLoop]
    | u :: rest =>
      rw [buildLoop]
      have hp := extractMin1_perm t (u :: rest)
      have hplen : (extractMin1 t (u :: rest)).2.length = rest.length + 1 := by
        rw [extractMin1_snd_length]; rfl
      set p := extractMin1 t (u :: rest) with hpdef
      match hsnd : p.2 with
      | [] => rw [hsnd] at hplen; simp at hplen
      | v :: tl =>
        have hq := extractMin1_perm v tl
        set q := extractMin1 v tl with hqdef
        have hqlen : q.2.length = tl.length := extractMin1_snd_length v tl
        have htl : tl.length < n := by
          have h1 : rest.length + 1 = tl.length + 1 := by
            rw [← hplen, hsnd]; rfl
          have h2 : rest.length + 1 = n := by
            simpa using hlen
          omega
        have hrec := ih q.2.length (by omega) (HTree.node (p.1.freq + q.1.freq) p.1 q.1) q.2 rfl
        simp only [hsnd, List.headD_cons, List.tail_cons]
        refine hrec.trans ?_
        have h1 : List.Perm ((HTree.node (p.1.freq + q.1.freq) p.1 q.1 :: q.2).flatMap leafSyms)
            ((p.1 :: q.1 :: q.2).flatMap leafSyms) := by
          simp only [List.flatMap_cons, leafSyms, List.append_assoc]
          exact List.Perm.refl _
        refine h1.trans ?_
        have h2 : List.Perm (p.1 :: q.1 :: q.2) (t :: u :: rest) := by
          refine List.Perm.trans (List.Perm.cons p.1 ?_) hp
          rw [hsnd]
          exact hq
        exact List.Perm.flatMap_right leafSyms h2

-- Facts about the code table produced by one compress call.

theorem sortedDedup_perm (ns : List Nat) :
    List.Perm (sortedDedup ns) ns.dedup :=
  List.mergeSort_perm ns.dedup _

theorem sortedDedup_nodup (ns : List Nat) : (sortedDedup ns).Nodup :=
  ((sortedDedup_perm ns).nodup_iff).mpr (List.nodup_dedup ns)

theorem sortedDedup_mem {ns : List Nat} {v : Nat} :
    v ∈ sortedDedup ns ↔ v ∈ ns := by
  rw [(sortedDedup_perm ns).mem_iff, List.mem_dedup]

theorem sortedDedup_ne_nil {ns : List Nat} (h : ns ≠ []) :
    sortedDedup ns ≠ [] := by
  intro hnil
  rcases ns with _ | ⟨a, l⟩
  · exact h rfl
  · have ha : a ∈ sortedDedup (a :: l) := sortedDedup_mem.mpr (by simp)
    rw [hnil] at ha
    simp at ha

theorem huffmanFreqs_fst (ns : List Nat) :
    (huffmanFreqs ns).map Prod.fst = sortedDedup ns := by
  unfold huffmanFreqs
  rw [List.map_map]
  simp [Function.comp_def]

theorem buildHuffmanTree_some {ns : List Nat} (h : ns ≠ []) :
    ∃ t, buildHuffmanTree (huffmanFreqs ns) = some t := by
  rcases hF : huffmanFreqs ns with _ | ⟨a, l⟩
  · exfalso
    apply sortedDedup_ne_nil h
    have := huffmanFreqs_fst ns
    rw [hF] at this
    simpa using this.symm
  · exact ⟨buildLoop (HTree.leaf a.1 a.2) (List.map (fun p => HTree.leaf p.1 p.2) l), by
      simp [buildHuffmanTree, hF]⟩

theorem leafSyms_map_leaf (freqs : List (Nat × Nat)) :
    (freqs.map (fun p => HTree.leaf p.1 p.2)).flatMap leafSyms = freqs.map Prod.fst := by
  induction freqs with
  | nil => rfl
  | cons a l ih => simp [leafSyms, ih]

/-- The symbols of the built tree are a permutation of the distinct
image values. -/
theorem buildHuffmanTree_leafSyms {ns : List Nat} {t : HTree}
    (h : buildHuffmanTree (huffmanFreqs ns) = some t) :
    List.Perm (leafSyms t) (sortedDedup ns) := by
  unfold buildHuffmanTree at h
  match hfr : (huffmanFreqs ns).map (fun p => HTree.leaf p.1 p.2) with
  | [] => rw [hfr] at h; simp at h
  | l0 :: ls =>
    rw [hfr] at h
    simp only [Option.some.injEq] at h
    subst h
    have hperm := buildLoop_leafSyms ls.length l0 ls rfl
    refine hperm.trans ?_
    rw [show l0 :: ls = (huffmanFreqs ns).map (fun p => HTree.leaf p.1 p.2) from hfr.symm]
    rw [leafSyms_map_leaf, huffmanFreqs_fst]

theorem huffmanCodesOf_fst_perm {ns : List Nat} (h : ns ≠ []) :
    List.Perm ((huffmanCodesOf ns).map Prod.fst) (sortedDedup ns) := by
  obtain ⟨t, ht⟩ := buildHuffmanTree_some h
  unfold huffmanCodesOf
  rw [ht]
  rw [codesOf_fst]
  exact buildHuffmanTree_leafSyms ht

theorem huffmanCodesOf_fst_nodup {ns : List Nat} (h : ns ≠ []) :
    ((huffmanCodesOf ns).map Prod.fst).Nodup :=
  ((huffmanCodesOf_fst_perm h).nodup_iff).mpr (sortedDedup_nodup ns)

theorem huffmanCodesOf_pairwise (ns : List Nat) :
    noCrossStarts (huffmanCodesOf ns) := by
  unfold huffmanCodesOf
  cases h : buildHuffmanTree (huffmanFreqs ns) with
  | none => simp [noCrossStarts]
  | some t => exact codesOf_pairwise t []

theorem huffmanCodesOf_ne_nil (ns : List Nat) :
    ∀ p ∈ huffmanCodesOf ns, p.2 ≠ [] := by
  unfold huffmanCodesOf
  cases h : buildHuffmanTree (huffmanFreqs ns) with
  | none => simp
  | some t => exact codesOf_ne_nil t []

theorem huffmanCodesOf_covers {ns : List Nat} {v : Nat} (hv : v ∈ ns) :
    ∃ c, (v, c) ∈ huffmanCodesOf ns := by
  have hne : ns ≠ [] := by rintro rfl; simp at hv
  have hmem : v ∈ (huffmanCodesOf ns).map Prod.fst :=
    ((huffmanCodesOf_fst_perm hne).mem_iff).mpr (sortedDedup_mem.mpr hv)
  obtain ⟨p, hp, hfst⟩ := List.mem_map.mp hmem
  exact ⟨p.2, by rw [← hfst]; simpa using hp⟩

-- Lookup resolution in the forward and inverted tables.

theorem codeFor_eq {cs : List (Nat × List Bool)} {v : Nat} {c : List Bool}
    (hnd : (cs.map Prod.fst).Nodup) (hmem : (v, c) ∈ cs) : codeFor cs v = c := by
  induction cs with
  | nil => simp at hmem
  | cons p rest ih =>
    rcases List.mem_cons.mp hmem with heq | hmem2
    · subst heq
      simp [codeFor]
    · have hne : p.1 ≠ v := by
        intro hpv
        have : v ∈ rest.map Prod.fst := List.mem_map.mpr ⟨(v, c), hmem2, rfl⟩
        rw [List.map_cons] at hnd
        rw [hpv] at hnd
        exact (List.nodup_cons.mp hnd).1 this
      have hrest : (rest.map Prod.fst).Nodup := by
        rw [List.map_cons] at hnd
        exact (List.nodup_cons.mp hnd).2
      unfold codeFor
      rw [List.find?_cons_of_neg _ (by simpa using hne)]
      exact ih hrest hmem2

theorem startsCode_of_pair {cs : List (Nat × List Bool)} {p q : Nat × List Bool}
    (hpw : noCrossStarts cs) (hp : p ∈ cs) (hq : q ∈ cs) (hne : p ≠ q) :
    ¬ startsCode p.2 q.2 := by
  have hsymm : Symmetric (fun a b : Nat × List Bool =>
      ¬ startsCode a.2 b.2 ∧ ¬ startsCode b.2 a.2) := by
    intro a b hab
    exact ⟨hab.2, hab.1⟩
  exact (List.Pairwise.forall hsymm hpw hp hq hne).1

theorem findSym_eq {cs : List (Nat × List Bool)} {v : Nat} {c : List Bool}
    (hpw : noCrossStarts cs) (hmem : (v, c) ∈ cs) : findSym cs c = some v := by
  unfold noCrossStarts at hpw
  induction cs with
  | nil => simp at hmem
  | cons p rest ih =>
    rcases List.mem_cons.mp hmem with heq | hmem2
    · subst heq
      simp [findSym]
    · have hrel := (List.pairwise_cons.mp hpw).1 (v, c) hmem2
      have hne : p.2 ≠ c := fun hpc => hrel.1 (startsCode_of_eq hpc)
      unfold findSym
      rw [List.find?_cons_of_neg _ (by simpa using hne)]
      exact ih (List.pairwise_cons.mp hpw).2 hmem2

theorem findSym_none {cs : List (Nat × List Bool)} {c : List Bool}
    (h : ∀ p ∈ cs, p.2 ≠ c) : findSym cs c = none := by
  induction cs with
  | nil => rfl
  | cons p rest ih =>
    unfold findSym
    rw [List.find?_cons_of_neg _ (by simpa using h p (by simp))]
    exact ih (fun q hq => h q (List.mem_cons_of_mem p hq))

-- Greedy decoding inverts codeword concatenation for a prefix-free table.

theorem decodeBitsAux_code {cs : List (Nat × List Bool)} {c : List Bool} {v : Nat}
    (hfind : findSym cs c = some v)
    (hpre : ∀ a, a ≠ [] → startsCode a c → a ≠ c → findSym cs a = none) :
    ∀ (tailc acc : List Bool) (rest : List Bool), acc ++ tailc = c → tailc ≠ [] →
      decodeBitsAux cs acc (tailc ++ rest) = v :: decodeBitsAux cs [] rest := by
  intro tailc
  induction tailc with
  | nil => intro acc rest _ hne; exact absurd rfl hne
  | cons b tl ih =>
    intro acc rest hacc _
    rcases tl with _ | ⟨b2, tl2⟩
    · have hc : acc ++ [b] = c := hacc
      simp only [List.cons_append, List.nil_append, decodeBitsAux, hc, hfind]
      rfl
    · have hcur : findSym cs (acc ++ [b]) = none := by
        apply hpre
        · simp
        · refine ⟨b2 :: tl2, ?_⟩
          rw [← hacc]
          simp
        · intro heq
          have h1 : (acc ++ [b]).length = c.length := by rw [heq]
          have h2 : (acc ++ (b :: b2 :: tl2)).length = c.length := by rw [hacc]
          simp at h1 h2
          omega
      show decodeBitsAux cs acc (b :: (b2 :: tl2 ++ rest)) = v :: decodeBitsAux cs [] rest
      rw [decodeBitsAux]
      rw [hcur]
      exact ih (acc ++ [b]) rest (by rw [← hacc]; simp) (by simp)

theorem findSym_no_proper_starts {ns : List Nat} {v : Nat} {c : List Bool}
    (hmem : (v, c) ∈ huffmanCodesOf ns) :
    ∀ a, a ≠ [] → startsCode a c → a ≠ c → findSym (huffmanCodesOf ns) a = none := by
  intro a hane hstarts hne
  apply findSym_none
  intro p hp heq
  by_cases hpq : p = (v, c)
  · apply hne
    rw [← heq, hpq]
  · apply startsCode_of_pair (huffmanCodesOf_pairwise ns) hp hmem hpq
    rw [heq]
    exact hstarts

/-- Greedy decoding of the concatenated codewords of the image symbols
recovers the symbol sequence. -/
theorem decodeBits_flatMap (ns : List Nat) :
    ∀ syms : List Nat, (∀ v ∈ syms, v ∈ ns) →
      decodeBitsAux (huffmanCodesOf ns) []
        (syms.flatMap (codeFor (huffmanCodesOf ns))) = syms := by
  intro syms
  induction syms with
  | nil => intro _; rfl
  | cons v rest ih =>
    intro hsub
    have hv : v ∈ ns := hsub v (by simp)
    have hne : ns ≠ [] := by rintro rfl; simp at hv
    obtain ⟨c, hc⟩ := huffmanCodesOf_covers hv
    have hcode : codeFor (huffmanCodesOf ns) v = c :=
      codeFor_eq (huffmanCodesOf_fst_nodup hne) hc
    have hcne : c ≠ [] := huffmanCodesOf_ne_nil ns (v, c) hc
    have hfind : findSym (huffmanCodesOf ns) c = some v :=
      findSym_eq (huffmanCodesOf_pairwise ns) hc
    rw [List.flatMap_cons, hcode]
    rw [decodeBitsAux_code hfind (findSym_no_proper_starts hc) c [] _ rfl hcne]
    rw [ih (fun w hw => hsub w (by simp [hw]))]

-- Byte packing of the bit string and the 4-byte header.

theorem byteToBits_bitsToByte : ∀ b0 b1 b2 b3 b4 b5 b6 b7 : Bool,
    byteToBits (bitsToByte [b0, b1, b2, b3, b4, b5, b6, b7]) =
      [b0, b1, b2, b3, b4, b5, b6, b7] := by decide

theorem unpack_packBits : ∀ (n : Nat) (bits : List Bool), bits.length = 8 * n →
    (packBits bits).flatMap byteToBits = bits := by
  intro n
  induction n with
  | zero =>
    intro bits h
    have : bits = [] := List.eq_nil_of_length_eq_zero (by omega)
    subst this
    rfl
  | succ m ih =>
    intro bits h
    rcases bits with _ | ⟨b0, _ | ⟨b1, _ | ⟨b2, _ | ⟨b3, _ | ⟨b4, _ | ⟨b5, _ | ⟨b6, _ | ⟨b7, rest⟩⟩⟩⟩⟩⟩⟩⟩
    all_goals simp only [List.length_nil, List.length_cons] at h
    all_goals try omega
    have hrest : rest.length = 8 * m := by omega
    show (packBits (b0 :: b1 :: b2 :: b3 :: b4 :: b5 :: b6 :: b7 :: rest)).flatMap byteToBits = _
    rw [packBits]
    rw [List.flatMap_cons, byteToBits_bitsToByte, ih rest hrest]
    rfl

theorem be4val_be4 (n : Nat) (h : n < 4294967296) : be4val (be4 n) = n := by
  simp only [be4, be4val, List.foldl_cons, List.foldl_nil]
  omega

theorem be4_length (n : Nat) : (be4 n).length = 4 := rfl

-- Length bounds guaranteeing the serialised code table fits the 4-byte
-- header (Python to_bytes would raise OverflowError past 2^32).

theorem natDecBytes_length_le : ∀ (k n : Nat), n < 10 ^ (k + 1) →
    (natDecBytes n).length ≤ k + 1 := by
  intro k
  induction k with
  | zero =>
    intro n h
    have h10 : n < 10 := by simpa using h
    rw [natDecBytes]
    simp [h10]
  | succ m ih =>
    intro n h
    rw [natDecBytes]
    by_cases h10 : n < 10
    · simp [h10]
    · simp only [h10, dite_false]
      have hdiv : n / 10 < 10 ^ (m + 1) := by
        apply Nat.div_lt_of_lt_mul
        calc n < 10 ^ (m + 2) := h
          _ = 10 * 10 ^ (m + 1) := by ring
      have := ih (n / 10) hdiv
      simp [List.length_append]
      omega

theorem jsonEntry_length (p : Nat × List Bool) (hs : p.1 < 1000) (hc : p.2.length ≤ 300) :
    (jsonEntry p).length ≤ 309 := by
  have hd := natDecBytes_length_le 2 p.1 (by omega)
  simp [jsonEntry, List.length_append]
  omega

theorem jsonSepEntries_length (rest : List (Nat × List Bool))
    (hs : ∀ p ∈ rest, p.1 < 1000) (hc : ∀ p ∈ rest, p.2.length ≤ 300) :
    (rest.flatMap (fun p => [44, 32] ++ jsonEntry p)).length ≤ 311 * rest.length := by
  induction rest with
  | nil => simp
  | cons q tl ih =>
    have hq := jsonEntry_length q (hs q (by simp)) (hc q (by simp))
    have htl := ih (fun p hp => hs p (by simp [hp])) (fun p hp => hc p (by simp [hp]))
    simp only [List.flatMap_cons, List.length_append, List.length_cons]
    simp only [List.length_cons, List.length_nil] at hq htl ⊢
    omega

theorem jsonCodeBytes_length (cs : List (Nat × List Bool))
    (hs : ∀ p ∈ cs, p.1 < 1000) (hc : ∀ p ∈ cs, p.2.length ≤ 300) :
    (jsonCodeBytes cs).length ≤ 2 + 311 * cs.length := by
  match cs with
  | [] => simp [jsonCodeBytes]
  | e :: rest =>
    have hflat := jsonSepEntries_length rest
      (fun p hp => hs p (by simp [hp])) (fun p hp => hc p (by simp [hp]))
    have he := jsonEntry_length e (hs e (by simp)) (hc e (by simp))
    simp only [jsonCodeBytes, List.length_cons, List.length_append, List.length_nil]
    omega

-- Codeword length and symbol bounds: the serialised table always fits
-- the 4-byte length header.

theorem leafSyms_length_pos (t : HTree) : 1 ≤ (leafSyms t).length := by
  induction t with
  | leaf s f => simp [leafSyms]
  | node f l r ihl ihr => simp [leafSyms, List.length_append]; omega

theorem codesOf_code_length (t : HTree) (q : List Bool) :
    ∀ p ∈ codesOf t q, p.2.length ≤ q.length + (leafSyms t).length := by
  induction t generalizing q with
  | leaf s f =>
    intro p hp
    simp [codesOf] at hp
    by_cases hq : q = []
    · simp [hq] at hp ⊢
      simp [hp, leafSyms]
    · simp [hq] at hp
      simp [hp, leafSyms]
  | node f l r ihl ihr =>
    intro p hp
    simp only [codesOf, List.mem_append] at hp
    simp only [leafSyms, List.length_append]
    rcases hp with hp | hp
    · have := ihl (q ++ [false]) p hp
      have hr := leafSyms_length_pos r
      simp [List.length_append] at this
      omega
    · have := ihr (q ++ [true]) p hp
      have hl := leafSyms_length_pos l
      simp [List.length_append] at this
      omega

theorem nodup_lt_length_le {l : List Nat} (hnd : l.Nodup) (hb : ∀ x ∈ l, x < 256) :
    l.length ≤ 256 := by
  have hsub : l.toFinset ⊆ Finset.range 256 := by
    intro x hx
    rw [List.mem_toFinset] at hx
    exact Finset.mem_range.mpr (hb x hx)
  have := Finset.card_le_card hsub
  rw [List.toFinset_card_of_nodup hnd] at this
  simpa using this

theorem huffmanCodesOf_mem_ns {ns : List Nat} {p : Nat × List Bool}
    (hne : ns ≠ []) (hp : p ∈ huffmanCodesOf ns) : p.1 ∈ ns := by
  have : p.1 ∈ (huffmanCodesOf ns).map Prod.fst := List.mem_map.mpr ⟨p, hp, rfl⟩
  exact sortedDedup_mem.mp (((huffmanCodesOf_fst_perm hne).mem_iff).mp this)

theorem huffmanCodesOf_length_le {ns : List Nat} (hne : ns ≠ [])
    (hb : ∀ x ∈ ns, x < 256) : (huffmanCodesOf ns).length ≤ 256 := by
  have hlen : (huffmanCodesOf ns).length = (sortedDedup ns).length := by
    have := (huffmanCodesOf_fst_perm hne).length_eq
    simpa using this
  rw [hlen]
  exact nodup_lt_length_le (sortedDedup_nodup ns)
    (fun x hx => hb x (sortedDedup_mem.mp hx))

theorem huffmanCodesOf_code_length {ns : List Nat} (hne : ns ≠ [])
    (hb : ∀ x ∈ ns, x < 256) :
    ∀ p ∈ huffmanCodesOf ns, p.2.length ≤ 256 := by
  intro p hp
  obtain ⟨t, ht⟩ := buildHuffmanTree_some hne
  have hcodes : huffmanCodesOf ns = codesOf t [] := by
    unfold huffmanCodesOf
    rw [ht]
  rw [hcodes] at hp
  have h1 := codesOf_code_length t [] p hp
  have h2 : (leafSyms t).length = (sortedDedup ns).length :=
    (buildHuffmanTree_leafSyms ht).length_eq
  have h3 := nodup_lt_length_le (sortedDedup_nodup ns)
    (fun x hx => hb x (sortedDedup_mem.mp hx))
  simp at h1
  omega

theorem huffmanTable_length_lt {ns : List Nat} (hne : ns ≠ [])
    (hb : ∀ x ∈ ns, x < 256) :
    (jsonCodeBytes (huffmanCodesOf ns)).length < 4294967296 := by
  have h1 := jsonCodeBytes_length (huffmanCodesOf ns)
    (fun p hp => by
      have := hb p.1 (huffmanCodesOf_mem_ns hne hp)
      omega)
    (fun p hp => by
      have := huffmanCodesOf_code_length hne hb p hp
      omega)
  have h2 := huffmanCodesOf_length_le hne hb
  omega

/-- Layout of a compress-produced payload: the header length checks pass
and the reconstruction reduces to fitting the greedily decoded bits. -/
theorem huffmanReconstruct_layout (tb : List Nat) (pad : Nat) (packed : List Nat)
    (cs : List (Nat × List Bool)) (shape : List Nat)
    (hlt : tb.length < 4294967296) :
    huffmanReconstruct (be4 tb.length ++ tb ++ pad :: packed) cs shape =
      fitToShape (toUint8List
        (huffmanDecodedOf (be4 tb.length ++ tb ++ pad :: packed) cs)) shape := by
  have htake : (be4 tb.length ++ tb ++ pad :: packed).take 4 = be4 tb.length := by
    rw [List.append_assoc]
    exact List.take_left' (be4_length _)
  have hlen : (be4 tb.length ++ tb ++ pad :: packed).length =
      4 + tb.length + 1 + packed.length := by
    simp only [List.length_append, List.length_cons, be4_length]
    omega
  unfold huffmanReconstruct
  rw [htake, be4val_be4 _ hlt, hlen]
  rw [if_neg (by omega), if_neg (by omega)]

/-- Field extraction from a compress-produced payload: the embedded
table is skipped via the header, the padding byte and the packed bytes
are read from their positions. -/
theorem huffmanDecodedOf_layout (tb : List Nat) (pad : Nat) (packed : List Nat)
    (cs : List (Nat × List Bool)) (hlt : tb.length < 4294967296) :
    huffmanDecodedOf (be4 tb.length ++ tb ++ pad :: packed) cs =
      decodeBitsAux cs []
        (if 0 < pad then
          (packed.flatMap byteToBits).take ((packed.flatMap byteToBits).length - pad)
         else packed.flatMap byteToBits) := by
  have htake : (be4 tb.length ++ tb ++ pad :: packed).take 4 = be4 tb.length := by
    rw [List.append_assoc]
    exact List.take_left' (be4_length _)
  have hheadlen : (be4 tb.length ++ tb).length = 4 + tb.length := by
    simp [List.length_append, be4]
    omega
  have hgetD : (be4 tb.length ++ tb ++ pad :: packed).getD (4 + tb.length) 0 = pad := by
    rw [List.getD_append_right _ _ _ _ (le_of_eq hheadlen)]
    rw [hheadlen]
    simp
  have hdrop : (be4 tb.length ++ tb ++ pad :: packed).drop (4 + tb.length + 1) = packed := by
    have hsplit2 : be4 tb.length ++ tb ++ pad :: packed =
        ((be4 tb.length ++ tb) ++ [pad]) ++ packed := by simp
    rw [hsplit2]
    apply List.drop_left'
    simp only [List.length_append, List.length_cons, List.length_nil, be4_length]
  unfold huffmanDecodedOf
  simp only [htake, be4val_be4 _ hlt, hgetD, hdrop]

/-- Core Huffman round trip: reconstructing a nonempty image's
compressed payload with the code table from its metadata gives back the
flattened image exactly. -/
theorem huffmanRoundTrip {ns : List Nat} (hne : ns ≠ [])
    (hb : ∀ x ∈ ns, x < 256) (shape : List Nat)
    (hlen : ns.length = shape.prod) :
    huffmanReconstruct (huffmanCompress ns).1 (huffmanCompress ns).2 shape = some ns := by
  obtain ⟨t, ht⟩ := buildHuffmanTree_some hne
  have hcodes : huffmanCodesOf ns = codesOf t [] := by
    unfold huffmanCodesOf
    rw [ht]
  have hcompress : huffmanCompress ns =
      (be4 (jsonCodeBytes (codesOf t [])).length ++ jsonCodeBytes (codesOf t []) ++
        ((8 - (ns.flatMap (codeFor (codesOf t []))).length % 8) % 8) ::
        packBits (ns.flatMap (codeFor (codesOf t [])) ++
          List.replicate ((8 - (ns.flatMap (codeFor (codesOf t []))).length % 8) % 8) false),
       codesOf t []) := by
    unfold huffmanCompress
    rw [ht]
  have hLlt : (jsonCodeBytes (codesOf t [])).length < 4294967296 := by
    rw [← hcodes]
    exact huffmanTable_length_lt hne hb
  have hunpack : (packBits (ns.flatMap (codeFor (codesOf t [])) ++
        List.replicate ((8 - (ns.flatMap (codeFor (codesOf t []))).length % 8) % 8)
          false)).flatMap byteToBits =
      ns.flatMap (codeFor (codesOf t [])) ++
        List.replicate ((8 - (ns.flatMap (codeFor (codesOf t []))).length % 8) % 8) false := by
    apply unpack_packBits (((ns.flatMap (codeFor (codesOf t []))).length +
      (8 - (ns.flatMap (codeFor (codesOf t []))).length % 8) % 8) / 8)
    simp [List.length_append]
    omega
  have hstripped : (if 0 < (8 - (ns.flatMap (codeFor (codesOf t []))).length % 8) % 8 then
      (ns.flatMap (codeFor (codesOf t [])) ++
        List.replicate ((8 - (ns.flatMap (codeFor (codesOf t []))).length % 8) % 8)
          false).take
        ((ns.flatMap (codeFor (codesOf t [])) ++
          List.replicate ((8 - (ns.flatMap (codeFor (codesOf t []))).length % 8) % 8)
            false).length -
          (8 - (ns.flatMap (codeFor (codesOf t []))).length % 8) % 8)
      else ns.flatMap (codeFor (codesOf t [])) ++
        List.replicate ((8 - (ns.flatMap (codeFor (codesOf t []))).length % 8) % 8) false) =
      ns.flatMap (codeFor (codesOf t [])) := by
    by_cases h0 : 0 < (8 - (ns.flatMap (codeFor (codesOf t []))).length % 8) % 8
    · rw [if_pos h0]
      apply List.take_left'
      simp [List.length_append]
    · rw [if_neg h0]
      have hz : (8 - (ns.flatMap (codeFor (codesOf t []))).length % 8) % 8 = 0 := by omega
      rw [hz]
      simp
  have hdecode : decodeBitsAux (codesOf t []) [] (ns.flatMap (codeFor (codesOf t []))) = ns := by
    rw [← hcodes]
    exact decodeBits_flatMap ns ns (fun v hv => hv)
  rw [hcompress]
  rw [huffmanReconstruct_layout _ _ _ _ _ hLlt]
  rw [huffmanDecodedOf_layout _ _ _ _ hLlt]
  rw [hunpack, hstripped, hdecode]
  rw [toUint8List_id ns hb]
  exact fitToShape_exact ns shape hlen

-- RLE round trip.

theorem rleDecodeBytes_runs (rest : List Nat) : ∀ (cur cnt : Nat),
    rleDecodeBytes ((rleRuns cur cnt rest).flatMap (fun p => [p.1, p.2])) =
      List.replicate cnt cur ++ rest := by
  induction rest with
  | nil =>
    intro cur cnt
    simp [rleRuns, rleDecodeBytes]
  | cons v tl ih =>
    intro cur cnt
    rw [rleRuns]
    by_cases h : v = cur ∧ cnt < 255
    · rw [if_pos h]
      rw [ih cur (cnt + 1)]
      rw [List.replicate_succ', h.1]
      simp
    · rw [if_neg h]
      simp only [List.flatMap_cons, List.cons_append, List.nil_append]
      rw [show rleDecodeBytes (cur :: cnt ::
          (rleRuns v 1 tl).flatMap (fun p => [p.1, p.2])) =
        List.replicate cnt cur ++
          rleDecodeBytes ((rleRuns v 1 tl).flatMap (fun p => [p.1, p.2])) from rfl]
      rw [ih v 1]
      simp

theorem rleRoundTrip (ns : List Nat) (hb : ∀ x ∈ ns, x < 256) (shape : List Nat)
    (hlen : ns.length = shape.prod) :
    rleReconstruct (rleCompress ns) shape = some ns := by
  match ns with
  | [] =>
    unfold rleReconstruct rleCompress
    rw [show rleDecodeBytes [] = [] from rfl]
    rw [show toUint8List [] = [] from rfl]
    exact fitToShape_exact [] shape (by simpa using hlen)
  | v :: rest =>
    unfold rleReconstruct rleCompress
    rw [rleDecodeBytes_runs rest v 1]
    rw [show List.replicate 1 v ++ rest = v :: rest by simp]
    rw [toUint8List_id _ hb]
    exact fitToShape_exact _ shape hlen

-- Differential round trip.

theorem toInt16_small (z : ℤ) (h1 : -32768 ≤ z) (h2 : z < 32768) : toInt16 z = z := by
  unfold toInt16
  omega

theorem toInt64_small (z : ℤ) (h1 : -9223372036854775808 ≤ z)
    (h2 : z < 9223372036854775808) : toInt64 z = z := by
  unfold toInt64
  omega

theorem cumsumFrom_nil (acc : ℤ) : cumsumFrom acc [] = [] := rfl

theorem cumsumFrom_cons (acc d : ℤ) (rest : List ℤ) :
    cumsumFrom acc (d :: rest) =
      toInt64 (acc + d) :: cumsumFrom (toInt64 (acc + d)) rest := rfl

theorem cumsum_diffs (rest : List Nat) : ∀ (prev : Nat), prev < 256 →
    (∀ x ∈ rest, x < 256) →
    cumsumFrom (prev : ℤ)
      (List.zipWith (fun a b => toInt16 (a - b))
        (rest.map (fun (n : Nat) => toInt16 (n : ℤ)))
        ((prev :: rest).map (fun (n : Nat) => toInt16 (n : ℤ)))) =
      rest.map (fun (n : Nat) => (n : ℤ)) := by
  induction rest with
  | nil => intro prev _ _; rfl
  | cons v tl ih =>
    intro prev hprev hb
    have hv : v < 256 := hb v (by simp)
    rw [show ((prev :: v :: tl).map (fun (n : Nat) => toInt16 (n : ℤ))) =
      toInt16 (prev : ℤ) :: ((v :: tl).map (fun (n : Nat) => toInt16 (n : ℤ))) from rfl]
    rw [show ((v :: tl).map (fun (n : Nat) => toInt16 (n : ℤ))) =
      toInt16 (v : ℤ) :: (tl.map (fun (n : Nat) => toInt16 (n : ℤ))) from rfl]
    rw [List.zipWith_cons_cons]
    rw [cumsumFrom_cons]
    have hv16 : toInt16 (v : ℤ) = (v : ℤ) := toInt16_small _ (by omega) (by omega)
    have hp16 : toInt16 (prev : ℤ) = (prev : ℤ) := toInt16_small _ (by omega) (by omega)
    have hd16 : toInt16 ((v : ℤ) - (prev : ℤ)) = (v : ℤ) - (prev : ℤ) :=
      toInt16_small _ (by omega) (by omega)
    have hsum : toInt64 ((prev : ℤ) + toInt16 (toInt16 (v : ℤ) - toInt16 (prev : ℤ))) =
        (v : ℤ) := by
      rw [hv16, hp16, hd16]
      rw [show (prev : ℤ) + ((v : ℤ) - (prev : ℤ)) = (v : ℤ) by ring]
      exact toInt64_small _ (by omega) (by omega)
    rw [hsum]
    rw [show (toInt16 (v : ℤ) :: tl.map (fun (n : Nat) => toInt16 (n : ℤ))) =
      ((v :: tl).map (fun (n : Nat) => toInt16 (n : ℤ))) from rfl]
    rw [ih v hv (fun x hx => hb x (by simp [hx]))]
    rfl

theorem map_toUint8Int_ofNat (l : List Nat) (hb : ∀ x ∈ l, x < 256) :
    (l.map (fun (n : Nat) => (n : ℤ))).map toUint8Int = l := by
  induction l with
  | nil => rfl
  | cons a tl ih =>
    have ha : a < 256 := hb a (by simp)
    rw [show ((a :: tl).map (fun (n : Nat) => (n : ℤ))) =
      (a : ℤ) :: (tl.map (fun (n : Nat) => (n : ℤ))) from rfl]
    rw [List.map_cons]
    rw [ih (fun x hx => hb x (by simp [hx]))]
    congr 1
    unfold toUint8Int
    omega

theorem diffRoundTrip (ns : List Nat) (hb : ∀ x ∈ ns, x < 256) (shape : List Nat)
    (hlen : ns.length = shape.prod) :
    diffReconstruct (diffCompress ns) shape = some ns := by
  match ns with
  | [] =>
    rw [show diffCompress [] = [] from rfl]
    unfold diffReconstruct diffDecode
    rw [cumsumFrom_nil]
    rw [show List.map toUint8Int ([] : List ℤ) = [] from rfl]
    exact fitToShape_exact [] shape (by simpa using hlen)
  | n :: rest =>
    have hn : n < 256 := hb n (by simp)
    have hrest : ∀ x ∈ rest, x < 256 := fun x hx => hb x (by simp [hx])
    have hcomp : diffCompress (n :: rest) =
        toInt16 (n : ℤ) :: List.zipWith (fun a b => toInt16 (a - b))
          (rest.map (fun (m : Nat) => toInt16 (m : ℤ)))
          ((n :: rest).map (fun (m : Nat) => toInt16 (m : ℤ))) := rfl
    rw [hcomp]
    unfold diffReconstruct diffDecode
    rw [cumsumFrom_cons]
    have hn64 : toInt64 (0 + toInt16 (n : ℤ)) = (n : ℤ) := by
      rw [toInt16_small _ (by omega) (by omega)]
      rw [show (0 : ℤ) + (n : ℤ) = (n : ℤ) by ring]
      exact toInt64_small _ (by omega) (by omega)
    rw [hn64]
    rw [cumsum_diffs rest n hn hrest]
    rw [show ((n : ℤ) :: rest.map (fun (n : Nat) => (n : ℤ))).map toUint8Int =
        ((n :: rest).map (fun (n : Nat) => (n : ℤ))).map toUint8Int from rfl]
    rw [map_toUint8Int_ofNat (n :: rest) hb]
    exact fitToShape_exact _ shape hlen

/-- C1: for every image (flattened row-major, 8-bit symbols, 2-D or
3-channel shape) and every method in {naive, rle, differential,
huffman}, reconstructing the compressor's output with the matching
reconstructor returns the original image exactly. -/
theorem C1_lossless_roundtrip (ns : List Nat) (shape : List Nat)
    (hb : ∀ x ∈ ns, x < 256) (hlen : ns.length = shape.prod) :
    directReconstruct (naiveCompress ns) shape = some ns ∧
    rleReconstruct (rleCompress ns) shape = some ns ∧
    diffReconstruct (diffCompress ns) shape = some ns ∧
    huffmanReconstruct (huffmanCompress ns).1 (huffmanCompress ns).2 shape = some ns := by
  refine ⟨?_, rleRoundTrip ns hb shape hlen, diffRoundTrip ns hb shape hlen, ?_⟩
  · unfold directReconstruct naiveCompress
    exact fitToShape_exact ns shape hlen
  · by_cases hne : ns = []
    · subst hne
      have hprod : shape.prod = 0 := by simpa using hlen.symm
      have hsd : sortedDedup [] = [] := by simp [sortedDedup]
      have hfr : huffmanFreqs [] = [] := by simp [huffmanFreqs, hsd]
      have hcz : huffmanCompress [] = ([], []) := by
        unfold huffmanCompress
        rw [hfr]
        rfl
      rw [hcz]
      unfold huffmanReconstruct
      rw [if_pos (by simp : ([] : List Nat).length < 5)]
      rw [hprod]
      rfl
    · exact huffmanRoundTrip hne hb shape hlen

/-- Witness: the round trips evaluated on the concrete image
[3, 200, 3, 7] with shape 2 by 2. -/
theorem C1_lossless_roundtrip_witness :
    directReconstruct (naiveCompress [3, 200, 3, 7]) [2, 2] = some [3, 200, 3, 7] ∧
    rleReconstruct (rleCompress [3, 200, 3, 7]) [2, 2] = some [3, 200, 3, 7] ∧
    diffReconstruct (diffCompress [3, 200, 3, 7]) [2, 2] = some [3, 200, 3, 7] ∧
    huffmanReconstruct (huffmanCompress [3, 200, 3, 7]).1
      (huffmanCompress [3, 200, 3, 7]).2 [2, 2] = some [3, 200, 3, 7] :=
  C1_lossless_roundtrip [3, 200, 3, 7] [2, 2] (by decide) (by decide)

-- C4: prefix freedom of the published code table.

theorem nodup_all_eq {l : List Nat} {v : Nat} (hnd : l.Nodup)
    (hmem : ∀ x, x ∈ l ↔ x = v) : l = [v] := by
  match l with
  | [] =>
    exfalso
    have hv : v ∈ ([] : List Nat) := (hmem v).mpr rfl
    simp at hv
  | a :: tl =>
    have ha : a = v := (hmem a).mp (by simp)
    subst ha
    have htl : tl = [] := by
      cases htl : tl with
      | nil => rfl
      | cons b tl2 =>
        exfalso
        have hb : b = a := (hmem b).mp (by simp [htl])
        subst hb
        rw [htl] at hnd
        exact (List.nodup_cons.mp hnd).1 (by simp)
    rw [htl]

theorem sortedDedup_const {ns : List Nat} {v : Nat} (hne : ns ≠ [])
    (hconst : ∀ x ∈ ns, x = v) : sortedDedup ns = [v] := by
  apply nodup_all_eq (sortedDedup_nodup ns)
  intro x
  constructor
  · intro hx
    exact hconst x (sortedDedup_mem.mp hx)
  · intro hx
    subst hx
    rcases ns with _ | ⟨a, tl⟩
    · exact absurd rfl hne
    · have := hconst a (by simp)
      subst this
      exact sortedDedup_mem.mpr (by simp)

theorem buildLoop_nil (t : HTree) : buildLoop t [] = t := by
  rw [buildLoop]

/-- C4: for every non-empty image, the Huffman code table produced by
compress is prefix-free (no entry's codeword is a proper prefix of a
different symbol's codeword), and an image with exactly one distinct
symbol gives that symbol the single-bit code "0" (here the bit list
[false]). -/
theorem C4_prefix_free_codes (ns : List Nat) (hne : ns ≠ []) :
    (∀ p ∈ huffmanCodesOf ns, ∀ q ∈ huffmanCodesOf ns, p.1 ≠ q.1 →
      ¬ (startsCode p.2 q.2 ∧ p.2 ≠ q.2)) ∧
    (∀ v, (∀ x ∈ ns, x = v) → huffmanCodesOf ns = [(v, [false])]) := by
  constructor
  · intro p hp q hq hfst hbad
    have hpq : p ≠ q := fun h => hfst (congrArg Prod.fst h)
    exact startsCode_of_pair (huffmanCodesOf_pairwise ns) hp hq hpq hbad.1
  · intro v hconst
    have hsd : sortedDedup ns = [v] := sortedDedup_const hne hconst
    unfold huffmanCodesOf buildHuffmanTree huffmanFreqs
    rw [hsd]
    rw [show ([v].map (fun w => (w, ns.count w))).map
        (fun p => HTree.leaf p.1 p.2) = [HTree.leaf v (ns.count v)] from rfl]
    rw [show (match [HTree.leaf v (ns.count v)] with
      | [] => (none : Option HTree)
      | t :: ts => some (buildLoop t ts)) =
        some (buildLoop (HTree.leaf v (ns.count v)) []) from rfl]
    rw [buildLoop_nil]
    rfl

/-- Witness: the two-pixel constant image [9, 9] receives the
single-entry table assigning 9 the code "0". -/
theorem C4_prefix_free_codes_witness : huffmanCodesOf [9, 9] = [(9, [false])] :=
  (C4_prefix_free_codes [9, 9] (by decide)).2 9 (by decide)

-- C2: behaviour of the six compressors on a zero-size image.

theorem huffmanCompress_nil : huffmanCompress [] = ([], []) := by
  have hsd : sortedDedup [] = [] := by simp [sortedDedup]
  have hfr : huffmanFreqs [] = [] := by simp [huffmanFreqs, hsd]
  unfold huffmanCompress
  rw [hfr]
  rfl

/-- C2 (code bug): on the 0-by-0 image, five of the six compressors
return normally with an empty (or header-only) payload, and the empty
Huffman payload round-trips to an empty result; but DCTCompressor
produces an empty block list and `np.concatenate` of an empty list
raises ValueError, so the DCT encoder does not handle the zero-size
image, contradicting the spec's empty-input requirement. -/
theorem C2_empty_image_dct_raises :
    dctCompress (fun _ _ => 0) 0 0 8 1 = none ∧
    naiveCompress [] = [] ∧
    rleCompress [] = [] ∧
    diffCompress [] = [] ∧
    huffmanCompress [] = ([], []) ∧
    sparseCompress (fun _ _ => 0) 0 0 4 = [0, 0, 0, 0] ∧
    huffmanReconstruct [] [] [0, 0] = some [] := by
  refine ⟨rfl, rfl, rfl, rfl, huffmanCompress_nil, rfl, rfl⟩

-- C3: the pad/truncate policy of the lossless reconstructors.

/-- Modelled from the spec: the spec-side description of the shape-fit
policy — truncate to the expected element count, or extend by repeating
the last element (edge padding). -/
def specFitResult (xs : List Nat) (shape : List Nat) : List Nat :=
  xs.take shape.prod ++ List.replicate (shape.prod - xs.length) (xs.getLastD 0)

theorem fitToShape_spec (xs : List Nat) (shape : List Nat) (h2 : 2 ≤ shape.length)
    (hok : xs ≠ [] ∨ shape.prod = 0) :
    fitToShape xs shape = some (specFitResult xs shape) := by
  unfold fitToShape specFitResult
  rw [if_pos h2]
  by_cases hlt : xs.length < shape.prod
  · rw [if_pos hlt]
    have hne : xs ≠ [] := by
      rcases hok with h | h
      · exact h
      · omega
    have hy : xs.getLast? = some (xs.getLastD 0) := by
      rcases xs with _ | ⟨a, tl⟩
      · exact absurd rfl hne
      · rw [List.getLastD_eq_getLast?]
        cases h : (a :: tl).getLast? with
        | none => simp at h
        | some y => rfl
    unfold padEdge
    rw [if_neg (by omega : ¬ shape.prod - xs.length = 0)]
    rw [hy]
    rw [List.take_of_length_le (by omega)]
  · rw [if_neg hlt]
    by_cases hgt : shape.prod < xs.length
    · rw [if_pos hgt]
      rw [show shape.prod - xs.length = 0 by omega]
      simp
    · rw [if_neg hgt]
      have heq : xs.length = shape.prod := by omega
      rw [List.take_of_length_le (by omega)]
      rw [show shape.prod - xs.length = 0 by omega]
      simp

theorem specFitResult_length (xs : List Nat) (shape : List Nat) :
    (specFitResult xs shape).length = shape.prod := by
  unfold specFitResult
  simp only [List.length_append, List.length_take, List.length_replicate]
  omega

/-- Counterexample to C3 as stated: an empty RLE payload with declared
shape 2 by 2 decodes to zero elements, and `np.pad(..., mode="edge")` on
the empty array raises instead of padding, so the reconstructor raises
on this count mismatch. -/
theorem C3_counterexample : rleReconstruct [] [2, 2] = none := rfl

/-- C3 (amended): for the lossless-path reconstructors, whenever the
decoded element count is at least one (or the declared shape is empty),
the result is returned without error at exactly the declared size,
extended by edge padding when short and truncated when long; the
remaining case — zero decoded elements with a positive declared size —
raises (see the counterexample). -/
theorem C3_shape_fit_amended (payload hpayload : List Nat) (pz : List ℤ)
    (cs : List (Nat × List Bool)) (shape : List Nat) (h2 : 2 ≤ shape.length) :
    (∀ xs : List Nat, xs ≠ [] ∨ shape.prod = 0 →
      (specFitResult xs shape).length = shape.prod) ∧
    (payload ≠ [] ∨ shape.prod = 0 →
      directReconstruct payload shape = some (specFitResult payload shape)) ∧
    (toUint8List (rleDecodeBytes payload) ≠ [] ∨ shape.prod = 0 →
      rleReconstruct payload shape =
        some (specFitResult (toUint8List (rleDecodeBytes payload)) shape)) ∧
    (diffDecode pz ≠ [] ∨ shape.prod = 0 →
      diffReconstruct pz shape = some (specFitResult (diffDecode pz) shape)) ∧
    (¬ hpayload.length < 5 → ¬ hpayload.length < 4 + be4val (hpayload.take 4) + 1 →
      (toUint8List (huffmanDecodedOf hpayload cs) ≠ [] ∨ shape.prod = 0) →
      huffmanReconstruct hpayload cs shape =
        some (specFitResult (toUint8List (huffmanDecodedOf hpayload cs)) shape)) := by
  refine ⟨fun xs _ => specFitResult_length xs shape, ?_, ?_, ?_, ?_⟩
  · intro hok
    unfold directReconstruct
    exact fitToShape_spec payload shape h2 hok
  · intro hok
    unfold rleReconstruct
    exact fitToShape_spec _ shape h2 hok
  · intro hok
    unfold diffReconstruct
    exact fitToShape_spec _ shape h2 hok
  · intro hc1 hc2 hok
    unfold huffmanReconstruct
    rw [if_neg hc1, if_neg hc2]
    exact fitToShape_spec _ shape h2 hok

/-- Witness: the amended shape-fit behaviour on concrete payloads (a
short RLE payload padded up, a one-element differential payload padded
up, a one-symbol Huffman payload padded up). -/
theorem C3_shape_fit_amended_witness :
    directReconstruct [5, 3] [2, 2] = some (specFitResult [5, 3] [2, 2]) ∧
    rleReconstruct [5, 3] [2, 2] =
      some (specFitResult (toUint8List (rleDecodeBytes [5, 3])) [2, 2]) ∧
    diffReconstruct [(300 : ℤ)] [2, 2] =
      some (specFitResult (diffDecode [(300 : ℤ)]) [2, 2]) ∧
    huffmanReconstruct [0, 0, 0, 0, 0, 128] [(9, [true])] [2, 2] =
      some (specFitResult
        (toUint8List (huffmanDecodedOf [0, 0, 0, 0, 0, 128] [(9, [true])])) [2, 2]) := by
  have h := C3_shape_fit_amended [5, 3] [0, 0, 0, 0, 0, 128] [(300 : ℤ)]
    [(9, [true])] [2, 2] (by decide)
  exact ⟨h.2.1 (by decide), h.2.2.1 (by decide), h.2.2.2.1 (by decide),
    h.2.2.2.2 (by decide) (by decide) (by decide)⟩

-- C5: the differential codec's encode formula and decode conversion.

/-- Modelled from the spec: the claimed clamp of a reconstructed value
back into the unsigned 8-bit range [0, 255]. -/
def clipToUint8 (z : ℤ) : ℤ := max 0 (min 255 z)

/-- Counterexample to C5 as stated: on the one-element int16 payload
[300] the decoder returns 300 mod 256 = 44, whereas clipping the
cumulative sum into [0, 255] as the claim describes would give 255. -/
theorem C5_counterexample :
    diffDecode [(300 : ℤ)] = [44] ∧ (clipToUint8 300).toNat = 255 ∧ (44 : Nat) ≠ 255 := by
  refine ⟨?_, by decide, by decide⟩
  rw [show diffDecode [(300 : ℤ)] =
    [toUint8Int (toInt64 (0 + 300))] from rfl]
  rw [show toInt64 (0 + 300) = 300 from toInt64_small _ (by norm_num) (by norm_num)]
  rw [show toUint8Int 300 = 44 by unfold toUint8Int; decide]

theorem toInt64_emod256 (z : ℤ) : toInt64 z % 256 = z % 256 := by
  unfold toInt64
  omega

theorem cumsumFrom_length (l : List ℤ) : ∀ acc, (cumsumFrom acc l).length = l.length := by
  induction l with
  | nil => intro acc; rfl
  | cons d rest ih => intro acc; rw [cumsumFrom_cons]; simp [ih]

theorem cumsumFrom_getD_mod (l : List ℤ) : ∀ (acc : ℤ) (i : Nat), i < l.length →
    ((cumsumFrom acc l).getD i 0) % 256 = (acc + (l.take (i + 1)).sum) % 256 := by
  induction l with
  | nil => intro acc i hi; simp at hi
  | cons d rest ih =>
    intro acc i hi
    rw [cumsumFrom_cons]
    match i with
    | 0 =>
      rw [show (toInt64 (acc + d) :: cumsumFrom (toInt64 (acc + d)) rest).getD 0 0 =
        toInt64 (acc + d) from rfl]
      rw [toInt64_emod256]
      simp
    | j + 1 =>
      rw [show (toInt64 (acc + d) :: cumsumFrom (toInt64 (acc + d)) rest).getD (j + 1) 0 =
        (cumsumFrom (toInt64 (acc + d)) rest).getD j 0 from rfl]
      rw [ih (toInt64 (acc + d)) j (by simpa using hi)]
      rw [show ((d :: rest).take (j + 1 + 1)).sum = d + (rest.take (j + 1)).sum by
        simp [List.take_succ_cons]]
      have h64 : toInt64 (acc + d) % 256 = (acc + d) % 256 := toInt64_emod256 (acc + d)
      omega

theorem zipWith_diff_formula (rest : List Nat) : ∀ (prev : Nat), prev < 256 →
    (∀ x ∈ rest, x < 256) →
    List.zipWith (fun a b => toInt16 (a - b))
      (rest.map (fun (m : Nat) => toInt16 (m : ℤ)))
      ((prev :: rest).map (fun (m : Nat) => toInt16 (m : ℤ))) =
    List.zipWith (fun (a b : Nat) => (a : ℤ) - (b : ℤ)) rest (prev :: rest) := by
  induction rest with
  | nil => intro prev _ _; rfl
  | cons v tl ih =>
    intro prev hprev hb
    have hv : v < 256 := hb v (by simp)
    rw [show ((prev :: v :: tl).map (fun (m : Nat) => toInt16 (m : ℤ))) =
      toInt16 (prev : ℤ) :: ((v :: tl).map (fun (m : Nat) => toInt16 (m : ℤ))) from rfl]
    rw [show ((v :: tl).map (fun (m : Nat) => toInt16 (m : ℤ))) =
      toInt16 (v : ℤ) :: (tl.map (fun (m : Nat) => toInt16 (m : ℤ))) from rfl]
    rw [List.zipWith_cons_cons, List.zipWith_cons_cons]
    rw [show (toInt16 (v : ℤ) :: tl.map (fun (m : Nat) => toInt16 (m : ℤ))) =
      ((v :: tl).map (fun (m : Nat) => toInt16 (m : ℤ))) from rfl]
    rw [ih v hv (fun x hx => hb x (by simp [hx]))]
    rw [show toInt16 (toInt16 (v : ℤ) - toInt16 (prev : ℤ)) = (v : ℤ) - (prev : ℤ) by
      rw [toInt16_small (v : ℤ) (by omega) (by omega),
        toInt16_small (prev : ℤ) (by omega) (by omega)]
      exact toInt16_small _ (by omega) (by omega)]

/-- C5 (amended): the encoder stores the first pixel verbatim followed
by the consecutive int16 differences pixel[i] - pixel[i-1] (the claim's
encode half holds); the decoder reconstructs element i as the running
cumulative sum of the payload reduced modulo 256 (the uint8 cast wraps)
— not clamped into [0, 255] as the claim stated. -/
theorem C5_differential_amended (ns : List Nat) (pz : List ℤ) (i : Nat)
    (hb : ∀ x ∈ ns, x < 256) (hne : ns ≠ []) (hi : i < pz.length) :
    diffCompress ns = (ns.headD 0 : ℤ) ::
      List.zipWith (fun (a b : Nat) => (a : ℤ) - (b : ℤ)) ns.tail ns ∧
    (diffDecode pz).length = pz.length ∧
    (diffDecode pz).getD i 0 = (((pz.take (i + 1)).sum) % 256).toNat := by
  refine ⟨?_, ?_, ?_⟩
  · match ns with
    | [] => exact absurd rfl hne
    | n :: rest =>
      have hn : n < 256 := hb n (by simp)
      have hrest : ∀ x ∈ rest, x < 256 := fun x hx => hb x (by simp [hx])
      have hcomp : diffCompress (n :: rest) =
          toInt16 (n : ℤ) :: List.zipWith (fun a b => toInt16 (a - b))
            (rest.map (fun (m : Nat) => toInt16 (m : ℤ)))
            ((n :: rest).map (fun (m : Nat) => toInt16 (m : ℤ))) := rfl
      rw [hcomp, zipWith_diff_formula rest n hn hrest]
      rw [toInt16_small _ (by omega) (by omega)]
      rfl
  · unfold diffDecode
    simp [cumsumFrom_length]
  · unfold diffDecode
    have hlen : (cumsumFrom 0 pz).length = pz.length := cumsumFrom_length pz 0
    have hmod := cumsumFrom_getD_mod pz 0 i hi
    have hlt3 : i < (cumsumFrom 0 pz).length := by rw [hlen]; exact hi
    have hlt2 : i < (List.map toUint8Int (cumsumFrom 0 pz)).length := by
      rw [List.length_map]; exact hlt3
    rw [List.getD_eq_getElem _ _ hlt2, List.getElem_map]
    rw [List.getD_eq_getElem _ _ hlt3] at hmod
    unfold toUint8Int
    rw [show (0 : ℤ) + (pz.take (i + 1)).sum = (pz.take (i + 1)).sum by ring] at hmod
    omega

/-- Witness: the amended encode/decode formulas at the image [10, 5] and
the payload [300, -1]. -/
theorem C5_differential_amended_witness :
    diffCompress [10, 5] = ((10 : ℤ) ::
      List.zipWith (fun (a b : Nat) => (a : ℤ) - (b : ℤ)) [5] [10, 5]) ∧
    (diffDecode [(300 : ℤ), (-1 : ℤ)]).length = 2 ∧
    (diffDecode [(300 : ℤ), (-1 : ℤ)]).getD 1 0 =
      ((([(300 : ℤ), (-1 : ℤ)].take 2).sum) % 256).toNat :=
  C5_differential_amended [10, 5] [(300 : ℤ), (-1 : ℤ)] 1 (by decide) (by decide) (by decide)

-- C7: truncated payloads yield zero-filled results.

/-- C7: a payload too short for its declared header fields makes the
Huffman reconstructor (fewer than 5 bytes, or fewer than the declared
table length plus the padding byte requires) and the sparse
reconstructor (fewer than 4 bytes for the sample count) return an
all-zero array of the declared shape instead of raising. -/
theorem C7_truncated_payload_zeros (payload : List Nat) (cs : List (Nat × List Bool))
    (shape : List Nat) (interp : List (Nat × Nat × Nat) → Nat → Nat → List Nat)
    (h2 : 2 ≤ shape.length) :
    (payload.length < 5 →
      huffmanReconstruct payload cs shape = some (List.replicate shape.prod 0)) ∧
    (payload.length < 4 + be4val (payload.take 4) + 1 →
      huffmanReconstruct payload cs shape = some (List.replicate shape.prod 0)) ∧
    (payload.length < 4 →
      sparseReconstruct payload shape interp =
        some (List.replicate (shape.headD 0 * shape.tail.headD 0) 0)) := by
  refine ⟨?_, ?_, ?_⟩
  · intro h5
    unfold huffmanReconstruct
    rw [if_pos h5]
  · intro hshort
    unfold huffmanReconstruct
    by_cases h5 : payload.length < 5
    · rw [if_pos h5]
    · rw [if_neg h5, if_pos hshort]
  · intro h4
    unfold sparseReconstruct
    rw [if_neg (by omega : ¬ shape.length < 2)]
    rw [if_pos h4]

/-- Witness: the three-byte payload [1, 2, 3] with shape 2 by 3 gives
six zeros from the Huffman reconstructor and from the sparse
reconstructor (whatever interpolation collaborator is plugged in). -/
theorem C7_truncated_payload_zeros_witness :
    huffmanReconstruct [1, 2, 3] [] [2, 3] = some (List.replicate 6 0) ∧
    sparseReconstruct [1, 2, 3] [2, 3] (fun _ _ _ => []) = some (List.replicate 6 0) := by
  have h := C7_truncated_payload_zeros [1, 2, 3] [] [2, 3] (fun _ _ _ => []) (by decide)
  exact ⟨h.1 (by decide), h.2.2 (by decide)⟩

-- C8: dispatch on an unknown method key.

theorem find?_fst_none {α : Type} (cs : List (String × α)) (m : String)
    (h : m ∉ cs.map Prod.fst) : cs.find? (fun p => p.1 == m) = none := by
  induction cs with
  | nil => rfl
  | cons p rest ih =>
    have hne : p.1 ≠ m := by
      intro hp
      exact h (by rw [← hp]; simp)
    rw [List.find?_cons_of_neg _ (by simpa using hne)]
    exact ih (fun hm => h (by simp at hm ⊢; exact Or.inr hm))

/-- Counterexample to C8 as stated: the key "HUFFMAN" is not in the
registry's key set, yet the CLI decode path lowercases the method before
the lookup and silently proceeds with the Huffman reconstructor instead
of signalling an unknown-method error. -/
theorem C8_counterexample :
    (("HUFFMAN") ∉ RECONSTRUCTORS.map Prod.fst) ∧
    lookupReconstructor ("HUFFMAN") = none ∧
    cliDecodeMethod ("HUFFMAN") = some RKind.huffman := by
  refine ⟨by decide, by decide, by decide⟩

/-- C8 (amended): a direct registry lookup of any key outside the key
set yields no decoder, and the CLI decode path signals its distinct
unknown-method failure exactly when the lowercased method key is outside
the key set — it never substitutes a default reconstructor. -/
theorem C8_unknown_method_amended (m : String) :
    (m ∉ RECONSTRUCTORS.map Prod.fst → lookupReconstructor m = none) ∧
    (strLower m ∉ RECONSTRUCTORS.map Prod.fst → cliDecodeMethod m = none) := by
  constructor
  · intro h
    unfold lookupReconstructor
    rw [find?_fst_none RECONSTRUCTORS m h]
    rfl
  · intro h
    unfold cliDecodeMethod lookupReconstructor
    rw [find?_fst_none RECONSTRUCTORS (strLower m) h]
    rfl

/-- Witness: the key "quantum" is rejected by both the raw lookup and
the CLI decode path. -/
theorem C8_unknown_method_amended_witness :
    lookupReconstructor ("quantum") = none ∧ cliDecodeMethod ("quantum") = none := by
  have h := C8_unknown_method_amended ("quantum")
  exact ⟨h.1 (by decide), h.2 (by decide)⟩

-- C10: the Huffman reconstructor never parses the embedded table bytes.

/-- C10: two payloads with the same 4-byte table-length header, the same
padding byte and the same packed-bits bytes decode identically for any
metadata, whatever the embedded table bytes in between are — symbols are
recovered solely from the metadata code table. -/
theorem C10_huffman_table_ignored (hdr t1 t2 : List Nat) (pad : Nat) (rest : List Nat)
    (cs : List (Nat × List Bool)) (shape : List Nat)
    (h4 : hdr.length = 4) (hl1 : t1.length = be4val hdr) (hl2 : t2.length = be4val hdr) :
    huffmanReconstruct (hdr ++ t1 ++ pad :: rest) cs shape =
      huffmanReconstruct (hdr ++ t2 ++ pad :: rest) cs shape := by
  have key : ∀ tb : List Nat, tb.length = be4val hdr →
      ((hdr ++ tb ++ pad :: rest).take 4 = hdr ∧
       (hdr ++ tb ++ pad :: rest).length = 4 + tb.length + 1 + rest.length ∧
       (hdr ++ tb ++ pad :: rest).getD (4 + be4val hdr) 0 = pad ∧
       (hdr ++ tb ++ pad :: rest).drop (4 + be4val hdr + 1) = rest) := by
    intro tb hlb
    have hheadlen : (hdr ++ tb).length = 4 + be4val hdr := by
      simp [List.length_append, h4, hlb]
    refine ⟨?_, ?_, ?_, ?_⟩
    · rw [List.append_assoc]
      exact List.take_left' h4
    · simp [List.length_append, h4]
      try omega
    · rw [List.getD_append_right _ _ _ _ (le_of_eq hheadlen)]
      rw [hheadlen]
      simp
    · rw [show hdr ++ tb ++ pad :: rest = ((hdr ++ tb) ++ [pad]) ++ rest by simp]
      apply List.drop_left'
      simp only [List.length_append, List.length_cons, List.length_nil, hheadlen]
      try omega
  obtain ⟨ht1, hlen1, hg1, hd1⟩ := key t1 hl1
  obtain ⟨ht2, hlen2, hg2, hd2⟩ := key t2 hl2
  have hdec : huffmanDecodedOf (hdr ++ t1 ++ pad :: rest) cs =
      huffmanDecodedOf (hdr ++ t2 ++ pad :: rest) cs := by
    unfold huffmanDecodedOf
    simp only [ht1, ht2, hg1, hg2, hd1, hd2]
  unfold huffmanReconstruct
  rw [ht1, ht2, hlen1, hlen2, hl1, hl2, hdec]

/-- Witness: two payloads differing only in their two embedded table
bytes decode to the same result. -/
theorem C10_huffman_table_ignored_witness :
    huffmanReconstruct ([0, 0, 0, 2] ++ [65, 66] ++ 0 :: [128]) [(9, [true])] [1, 4] =
      huffmanReconstruct ([0, 0, 0, 2] ++ [90, 91] ++ 0 :: [128]) [(9, [true])] [1, 4] :=
  C10_huffman_table_ignored [0, 0, 0, 2] [65, 66] [90, 91] 0 [128] [(9, [true])] [1, 4]
    (by decide) (by decide) (by decide)

-- C9: DCT payload size.

theorem sum_map_const (nh nw : Nat) :
    (List.map (fun _ => nw) (List.range nh)).sum = nh * nw := by
  induction nh with
  | zero => simp
  | succ m ih =>
    rw [List.range_succ]
    simp [ih]
    ring

theorem grid_length {α : Type} (g : Nat → Nat → α) (nh nw : Nat) :
    ((List.range nh).flatMap (fun bi => (List.range nw).map (fun bj => g bi bj))).length =
      nh * nw := by
  rw [List.length_flatMap]
  have hmap : (List.map
      (List.length ∘ fun bi => (List.range nw).map (fun bj => g bi bj)) (List.range nh)) =
      List.map (fun _ => nw) (List.range nh) := by
    apply List.map_congr_left
    intro a _
    simp
  rw [hmap, sum_map_const]

theorem dctBlockCoeffs_length (bs : Nat) (q : ℝ) (block : Nat → Nat → ℝ) :
    (dctBlockCoeffs bs q block).length = bs * bs := by
  unfold dctBlockCoeffs
  exact grid_length (fun i j => thresholdedEntry bs q block i j) bs bs

theorem flatten_length_const (xss : List (List ℝ)) (k : Nat)
    (h : ∀ x ∈ xss, x.length = k) : xss.flatten.length = xss.length * k := by
  induction xss with
  | nil => simp
  | cons a tl ih =>
    simp only [List.flatten_cons, List.length_append, List.length_cons]
    rw [h a (by simp), ih (fun x hx => h x (by simp [hx]))]
    ring

theorem npConcatenate_ne_nil (xss : List (List ℝ)) (h : xss ≠ []) :
    npConcatenate xss = some xss.flatten := by
  match xss with
  | [] => exact absurd rfl h
  | a :: tl => rfl

theorem paddedDim_dvd (n bs : Nat) (hbs : 0 < bs) : bs ∣ paddedDim n bs := by
  unfold paddedDim
  by_cases hr : n % bs = 0
  · rw [hr]
    simp only [Nat.sub_zero, Nat.mod_self, Nat.add_zero]
    exact Nat.dvd_of_mod_eq_zero hr
  · have hrlt : n % bs < bs := Nat.mod_lt n hbs
    have hpad : (bs - n % bs) % bs = bs - n % bs := Nat.mod_eq_of_lt (by omega)
    rw [hpad]
    have hsum : n + (bs - n % bs) = bs * (n / bs) + bs := by
      have hdm := Nat.div_add_mod n bs
      omega
    rw [hsum]
    exact ⟨n / bs + 1, by ring⟩

theorem paddedDim_pos (n bs : Nat) (hn : 0 < n) : 0 < paddedDim n bs := by
  unfold paddedDim
  omega

theorem paddedDim_ge (n bs : Nat) : n ≤ paddedDim n bs := by
  unfold paddedDim
  omega

/-- C9: for every non-empty 2-D image, the DCT compressor stores one
float32 (4 payload bytes) per padded-grid coefficient, so the payload
byte count equals 4 * padded_height * padded_width; when both
dimensions already divide the block size the payload is four times the
raw image size, so the DCT path always expands the byte count. -/
theorem C9_dct_payload_expands (pixel : Nat → Nat → Nat) (h w bs : Nat) (q : ℝ)
    (hh : 0 < h) (hw : 0 < w) (hbs : 0 < bs) :
    ∃ coeffs : List ℝ, dctCompress pixel h w bs q = some coeffs ∧
      4 * coeffs.length = 4 * (paddedDim h bs * paddedDim w bs) ∧
      (h % bs = 0 → w % bs = 0 →
        4 * coeffs.length = 4 * (h * w) ∧ h * w < 4 * coeffs.length) := by
  have hnh : paddedDim h bs / bs * bs = paddedDim h bs :=
    Nat.div_mul_cancel (paddedDim_dvd h bs hbs)
  have hnw : paddedDim w bs / bs * bs = paddedDim w bs :=
    Nat.div_mul_cancel (paddedDim_dvd w bs hbs)
  have hnh1 : 0 < paddedDim h bs / bs := by
    rcases Nat.eq_zero_or_pos (paddedDim h bs / bs) with h0 | h1
    · exfalso
      have := paddedDim_pos h bs hh
      rw [h0] at hnh
      omega
    · exact h1
  have hnw1 : 0 < paddedDim w bs / bs := by
    rcases Nat.eq_zero_or_pos (paddedDim w bs / bs) with h0 | h1
    · exfalso
      have := paddedDim_pos w bs hw
      rw [h0] at hnw
      omega
    · exact h1
  unfold dctCompress
  set qc := max 0.1 (min 1 q) with hqc
  set blocks := (List.range (paddedDim h bs / bs)).flatMap
    (fun bi => (List.range (paddedDim w bs / bs)).map
      (fun bj => dctBlockCoeffs bs qc
        (fun i j => ((pixel (min (bi * bs + i) (h - 1)) (min (bj * bs + j) (w - 1)) : Nat) : ℝ)))) with hblocks
  have hblen : blocks.length = (paddedDim h bs / bs) * (paddedDim w bs / bs) := by
    rw [hblocks]
    exact grid_length _ _ _
  have heach : ∀ x ∈ blocks, x.length = bs * bs := by
    intro x hx
    rw [hblocks] at hx
    rw [List.mem_flatMap] at hx
    obtain ⟨bi, _, hxm⟩ := hx
    rw [List.mem_map] at hxm
    obtain ⟨bj, _, hxe⟩ := hxm
    rw [← hxe]
    exact dctBlockCoeffs_length bs qc _
  have hbne : blocks ≠ [] := by
    intro hnil
    rw [hnil] at hblen
    simp at hblen
    omega
  refine ⟨blocks.flatten, npConcatenate_ne_nil blocks hbne, ?_, ?_⟩
  · rw [flatten_length_const blocks (bs * bs) heach, hblen]
    have : paddedDim h bs / bs * (paddedDim w bs / bs) * (bs * bs) =
        (paddedDim h bs / bs * bs) * (paddedDim w bs / bs * bs) := by ring
    rw [this, hnh, hnw]
  · intro hhm hwm
    have hph : paddedDim h bs = h := by
      unfold paddedDim
      rw [hhm]
      simp [Nat.mod_self]
    have hpw : paddedDim w bs = w := by
      unfold paddedDim
      rw [hwm]
      simp [Nat.mod_self]
    rw [flatten_length_const blocks (bs * bs) heach, hblen]
    have harith : paddedDim h bs / bs * (paddedDim w bs / bs) * (bs * bs) =
        (paddedDim h bs / bs * bs) * (paddedDim w bs / bs * bs) := by ring
    rw [harith, hnh, hnw, hph, hpw]
    constructor
    · rfl
    · have : 0 < h * w := Nat.mul_pos hh hw
      omega

/-- Witness: on an 8-by-8 image with block size 8 the DCT payload holds
64 coefficients, 256 bytes for a 64-byte image. -/
theorem C9_dct_payload_expands_witness :
    ∃ coeffs : List ℝ, dctCompress (fun _ _ => 0) 8 8 8 1 = some coeffs ∧
      4 * coeffs.length = 4 * (paddedDim 8 8 * paddedDim 8 8) ∧
      (8 % 8 = 0 → 8 % 8 = 0 →
        4 * coeffs.length = 4 * (8 * 8) ∧ 8 * 8 < 4 * coeffs.length) :=
  C9_dct_payload_expands (fun _ _ => 0) 8 8 8 1 (by decide) (by decide) (by decide)

-- C6: Shannon entropy bounds.

theorem jensen_log_card (t : Finset Nat) (p : Nat → ℝ) (hpos : ∀ v ∈ t, 0 < p v)
    (hsum : ∑ v ∈ t, p v = 1) :
    ∑ v ∈ t, p v * Real.log (p v)⁻¹ ≤ Real.log t.card := by
  have hmem : ∀ v ∈ t, (p v)⁻¹ ∈ Set.Ioi (0:ℝ) := by
    intro v hv
    exact Set.mem_Ioi.mpr (inv_pos.mpr (hpos v hv))
  have hJ := (strictConcaveOn_log_Ioi.concaveOn).le_map_sum
    (fun v hv => le_of_lt (hpos v hv)) hsum hmem
  have hpt : ∑ v ∈ t, p v • (p v)⁻¹ = (t.card : ℝ) := by
    rw [Finset.sum_congr rfl (fun v hv => ?_)]
    · rw [Finset.sum_const, nsmul_eq_mul, mul_one]
    · rw [smul_eq_mul]
      exact mul_inv_cancel₀ (ne_of_gt (hpos v hv))
  rw [hpt] at hJ
  simpa [smul_eq_mul] using hJ

theorem logb_two_256 : Real.logb 2 256 = 8 := by
  have h : (256:ℝ) = 2 ^ (8:ℕ) := by norm_num
  rw [h, Real.logb_pow, Real.logb_self_eq_one (by norm_num)]
  norm_num

theorem entropy_sum_le (t : Finset Nat) (p : Nat → ℝ) (hpos : ∀ v ∈ t, 0 < p v)
    (hsum : ∑ v ∈ t, p v = 1) (hcard : t.card ≤ 256) (hne : t.Nonempty) :
    -(∑ v ∈ t, p v * Real.logb 2 (p v)) ≤ 8 := by
  have hJ := jensen_log_card t p hpos hsum
  have hlog2 : (0:ℝ) < Real.log 2 := Real.log_pos (by norm_num)
  have hstep : -(∑ v ∈ t, p v * Real.logb 2 (p v)) =
      ∑ v ∈ t, p v * Real.logb 2 (p v)⁻¹ := by
    rw [← Finset.sum_neg_distrib]
    apply Finset.sum_congr rfl
    intro v _
    rw [Real.logb_inv]
    ring
  rw [hstep]
  have hdiv : ∑ v ∈ t, p v * Real.logb 2 (p v)⁻¹ =
      (∑ v ∈ t, p v * Real.log (p v)⁻¹) / Real.log 2 := by
    rw [Finset.sum_div]
    apply Finset.sum_congr rfl
    intro v _
    rw [Real.logb]
    ring
  rw [hdiv]
  have hcardpos : (0:ℝ) < t.card := by
    have hc := Finset.card_pos.mpr hne
    exact_mod_cast hc
  have h1 : (∑ v ∈ t, p v * Real.log (p v)⁻¹) / Real.log 2 ≤
      Real.log t.card / Real.log 2 :=
    (div_le_div_iff_of_pos_right hlog2).mpr hJ
  have h2 : Real.log (t.card : ℝ) / Real.log 2 = Real.logb 2 (t.card : ℝ) := by
    rw [Real.logb]
  have h3 : Real.logb 2 ((t.card : ℕ) : ℝ) ≤ Real.logb 2 256 :=
    (Real.logb_le_logb (by norm_num) hcardpos (by norm_num)).mpr (by exact_mod_cast hcard)
  calc (∑ v ∈ t, p v * Real.log (p v)⁻¹) / Real.log 2
      ≤ Real.log t.card / Real.log 2 := h1
    _ = Real.logb 2 (t.card : ℝ) := h2
    _ ≤ Real.logb 2 256 := h3
    _ = 8 := logb_two_256

theorem filter_pos_id (l : List ℝ) (h : ∀ x ∈ l, 0 < x) :
    l.filter (fun p => decide (0 < p)) = l := by
  induction l with
  | nil => rfl
  | cons a tl ih =>
    rw [List.filter_cons_of_pos (by simpa using h a (by simp))]
    rw [ih (fun x hx => h x (by simp [hx]))]

theorem sortedDedup_toFinset (ns : List Nat) :
    (sortedDedup ns).toFinset = ns.toFinset := by
  ext x
  simp [List.mem_toFinset, sortedDedup_mem]

theorem count_sum_length (ns : List Nat) :
    ∑ v ∈ ns.toFinset, ns.count v = ns.length := by
  simp [Multiset.coe_count]

theorem entropy_eq_finset_sum (ns : List Nat) (hne : ns ≠ []) :
    calculate_entropy ns =
      -(∑ v ∈ ns.toFinset,
        ((ns.count v : ℝ) / (ns.length : ℝ)) *
          Real.logb 2 ((ns.count v : ℝ) / (ns.length : ℝ))) := by
  unfold calculate_entropy
  have hN : (0:ℝ) < (ns.length : ℝ) := by
    have hl : 0 < ns.length := List.length_pos.mpr hne
    exact_mod_cast hl
  have hpos : ∀ x ∈ (sortedDedup ns).map
      (fun v => ((ns.count v : ℝ) / (ns.length : ℝ))), 0 < x := by
    intro x hx
    rw [List.mem_map] at hx
    obtain ⟨v, hv, hxe⟩ := hx
    have hc : 0 < ns.count v := List.count_pos_iff.mpr (sortedDedup_mem.mp hv)
    rw [← hxe]
    apply div_pos _ hN
    exact_mod_cast hc
  show -((((sortedDedup ns).map
      (fun v => ((ns.count v : ℝ) / (ns.length : ℝ)))).filter
      (fun p => decide (0 < p))).map (fun p => p * Real.logb 2 p)).sum = _
  rw [filter_pos_id _ hpos]
  rw [List.map_map]
  rw [← List.sum_toFinset _ (sortedDedup_nodup ns)]
  rw [sortedDedup_toFinset]
  congr 1

theorem sum_probs_one (ns : List Nat) (hne : ns ≠ []) :
    ∑ v ∈ ns.toFinset, ((ns.count v : ℝ) / (ns.length : ℝ)) = 1 := by
  have hN : (ns.length : ℝ) ≠ 0 := by
    have hl : 0 < ns.length := List.length_pos.mpr hne
    exact_mod_cast Nat.pos_iff_ne_zero.mp hl
  rw [← Finset.sum_div]
  rw [show ∑ v ∈ ns.toFinset, ((ns.count v : ℝ)) = ((ns.length : ℕ) : ℝ) by
    rw [← Nat.cast_sum]
    exact Nat.cast_inj.mpr (count_sum_length ns)]
  exact div_self hN

theorem calculate_entropy_nil : calculate_entropy [] = 0 := by
  unfold calculate_entropy
  show -((((sortedDedup []).map
      (fun v => ((List.count v [] : ℝ) / (([] : List Nat).length : ℝ)))).filter
      (fun p => decide (0 < p))).map (fun p => p * Real.logb 2 p)).sum = 0
  rw [show sortedDedup [] = [] by simp [sortedDedup]]
  simp

theorem ns_toFinset_card_le (ns : List Nat) (hb : ∀ x ∈ ns, x < 256) :
    ns.toFinset.card ≤ 256 := by
  have hsub : ns.toFinset ⊆ Finset.range 256 := by
    intro x hx
    rw [List.mem_toFinset] at hx
    exact Finset.mem_range.mpr (hb x hx)
  simpa using Finset.card_le_card hsub

/-- C6: calculate_entropy always lies in [0, 8] for 8-bit data, is 0 for
an image of a single repeated value, and is exactly 8 when all 256
symbol values occur with the same positive frequency. -/
theorem C6_entropy_range (ns : List Nat) (hb : ∀ x ∈ ns, x < 256) :
    (0 ≤ calculate_entropy ns ∧ calculate_entropy ns ≤ 8) ∧
    (∀ v, ns ≠ [] → (∀ x ∈ ns, x = v) → calculate_entropy ns = 0) ∧
    (∀ k, 0 < k → (∀ v, v < 256 → ns.count v = k) → calculate_entropy ns = 8) := by
  refine ⟨?_, ?_, ?_⟩
  · by_cases hne : ns = []
    · subst hne
      rw [calculate_entropy_nil]
      norm_num
    · have hN : (0:ℝ) < (ns.length : ℝ) := by
        have hl : 0 < ns.length := List.length_pos.mpr hne
        exact_mod_cast hl
      have hp01 : ∀ v ∈ ns.toFinset,
          0 < ((ns.count v : ℝ) / (ns.length : ℝ)) ∧
          ((ns.count v : ℝ) / (ns.length : ℝ)) ≤ 1 := by
        intro v hv
        rw [List.mem_toFinset] at hv
        have hc : 0 < ns.count v := List.count_pos_iff.mpr hv
        have hcle : ns.count v ≤ ns.length := List.count_le_length v ns
        constructor
        · apply div_pos _ hN
          exact_mod_cast hc
        · rw [div_le_one hN]
          exact_mod_cast hcle
      rw [entropy_eq_finset_sum ns hne]
      constructor
      · rw [neg_nonneg]
        apply Finset.sum_nonpos
        intro v hv
        apply mul_nonpos_of_nonneg_of_nonpos
        · exact le_of_lt (hp01 v hv).1
        · exact Real.logb_nonpos (by norm_num) (le_of_lt (hp01 v hv).1) (hp01 v hv).2
      · apply entropy_sum_le ns.toFinset _ (fun v hv => (hp01 v hv).1)
          (sum_probs_one ns hne) (ns_toFinset_card_le ns hb)
        rcases ns with _ | ⟨a, tl⟩
        · exact absurd rfl hne
        · exact ⟨a, by simp⟩
  · intro v hne hconst
    have hsd : sortedDedup ns = [v] := sortedDedup_const hne hconst
    have hcount : ns.count v = ns.length := by
      rw [List.count_eq_length]
      intro b hbmem
      exact (hconst b hbmem).symm
    have hN : (ns.length : ℝ) ≠ 0 := by
      have hl : 0 < ns.length := List.length_pos.mpr hne
      exact_mod_cast Nat.pos_iff_ne_zero.mp hl
    unfold calculate_entropy
    show -((((sortedDedup ns).map
        (fun w => ((ns.count w : ℝ) / (ns.length : ℝ)))).filter
        (fun p => decide (0 < p))).map (fun p => p * Real.logb 2 p)).sum = 0
    rw [hsd]
    rw [show ([v].map (fun w => ((ns.count w : ℝ) / (ns.length : ℝ)))) =
      [(ns.count v : ℝ) / (ns.length : ℝ)] from rfl]
    rw [hcount]
    rw [div_self hN]
    simp [Real.logb_one]
  · intro k hk hcounts
    have hne : ns ≠ [] := by
      intro hnil
      have := hcounts 0 (by norm_num)
      rw [hnil] at this
      simp at this
      omega
    have htf : ns.toFinset = Finset.range 256 := by
      ext x
      rw [List.mem_toFinset, Finset.mem_range]
      constructor
      · exact hb x
      · intro hx
        apply List.count_pos_iff.mp
        rw [hcounts x hx]
        exact hk
    have hlen : ns.length = 256 * k := by
      rw [← count_sum_length ns, htf]
      rw [Finset.sum_congr rfl (fun v hv => hcounts v (Finset.mem_range.mp hv))]
      simp [Finset.sum_const]
      try ring
    have hkR : ((k : ℝ)) ≠ 0 := by
      exact_mod_cast Nat.pos_iff_ne_zero.mp hk
    have hprob : ∀ v ∈ ns.toFinset,
        ((ns.count v : ℝ) / (ns.length : ℝ)) = (256:ℝ)⁻¹ := by
      intro v hv
      rw [htf] at hv
      rw [hcounts v (Finset.mem_range.mp hv), hlen]
      push_cast
      field_simp
      try ring
    rw [entropy_eq_finset_sum ns hne]
    rw [Finset.sum_congr rfl (fun v hv => by rw [hprob v hv])]
    rw [Finset.sum_const, htf]
    simp only [Finset.card_range, nsmul_eq_mul]
    rw [Real.logb_inv, logb_two_256]
    norm_num

/-- Witness: the constant image [5, 5] has entropy 0 (inside [0, 8]),
and one copy of each of the 256 symbol values has entropy exactly 8. -/
theorem C6_entropy_range_witness :
    (0 ≤ calculate_entropy [5, 5] ∧ calculate_entropy [5, 5] ≤ 8) ∧
    calculate_entropy [5, 5] = 0 ∧
    calculate_entropy (List.range 256) = 8 := by
  have h1 := C6_entropy_range [5, 5] (by decide)
  have h2 := C6_entropy_range (List.range 256) (by decide)
  exact ⟨h1.1, h1.2.1 5 (by decide) (by decide),
    h2.2.2 1 (by decide) (by decide)⟩
